import Mathlib

/-!
Verification of the RPL snapshot/restore tool (src/rpl.py) against its
specification.  Strings are modelled as `List Char`, byte contents as
`List Nat`, and relative filesystem paths as lists of path segments.
The MD5 fingerprint is modelled as an arbitrary function of the file's
bytes, passed as a parameter `md5` to the scanner.
-/

/-- Test whether the first list is an initial segment of the second
(models Python's `str.startswith`). -/
def begins : List Char → List Char → Bool
  | [], _ => true
  | _ :: _, [] => false
  | a :: as, b :: bs => a == b && begins as bs

/-- Substring containment test (models Python's `in` operator on strings,
as used by `'.rpl' in root`). -/
def hasSub (pat : List Char) : List Char → Bool
  | [] => begins pat []
  | c :: rest => begins pat (c :: rest) || hasSub pat rest

theorem bor_elim {a b : Bool} (h : (a || b) = true) : a = true ∨ b = true := by
  cases a
  · right; simpa using h
  · left; rfl

theorem begins_length_le : ∀ q s : List Char, begins q s = true → q.length ≤ s.length
  | [], _, _ => Nat.zero_le _
  | _ :: _, [], h => by simp [begins] at h
  | a :: as, b :: bs, h => by
    simp only [begins, Bool.and_eq_true, beq_iff_eq] at h
    exact Nat.succ_le_succ (begins_length_le as bs h.2)

theorem begins_append_self : ∀ q t : List Char, begins q (q ++ t) = true
  | [], _ => rfl
  | a :: as, t => by
    simp only [List.cons_append, begins, Bool.and_eq_true, beq_iff_eq]
    exact ⟨trivial, begins_append_self as t⟩

theorem begins_refl (q : List Char) : begins q q = true := by
  have h := begins_append_self q []
  rwa [List.append_nil] at h

theorem begins_mono : ∀ q a : List Char, begins q a = true → ∀ b, begins q (a ++ b) = true
  | [], _, _, _ => rfl
  | _ :: _, [], h, _ => by simp [begins] at h
  | q :: qs, c :: cs, h, b => by
    simp only [begins, Bool.and_eq_true, beq_iff_eq] at h
    simp only [List.cons_append, begins, Bool.and_eq_true, beq_iff_eq]
    exact ⟨h.1, begins_mono qs cs h.2 b⟩

theorem begins_of_le_append : ∀ (q a b : List Char), q.length ≤ a.length →
    begins q (a ++ b) = begins q a
  | [], _, _, _ => rfl
  | _ :: _, [], _, h => by simp at h
  | q :: qs, c :: cs, b, h => by
    show (q == c && begins qs (cs ++ b)) = (q == c && begins qs cs)
    rw [begins_of_le_append qs cs b (Nat.le_of_succ_le_succ h)]

theorem begins_drop_of_append : ∀ (a q b : List Char), begins q (a ++ b) = true →
    a.length ≤ q.length → begins (q.drop a.length) b = true
  | [], _, _, h, _ => h
  | _ :: _, [], _, _, hle => by simp at hle
  | c :: cs, q :: qs, b, h, hle => by
    simp only [List.cons_append, begins, Bool.and_eq_true, beq_iff_eq] at h
    exact begins_drop_of_append cs qs b h.2 (Nat.le_of_succ_le_succ hle)

theorem begins_take_eq : ∀ (q s : List Char), begins q s = true → s.take q.length = q
  | [], _, _ => rfl
  | _ :: _, [], h => by simp [begins] at h
  | q :: qs, c :: cs, h => by
    simp only [begins, Bool.and_eq_true, beq_iff_eq] at h
    simp only [List.length_cons, List.take_succ_cons, begins_take_eq qs cs h.2, h.1]

theorem take_eq_of_begins_append : ∀ (a q b : List Char), begins q (a ++ b) = true →
    a.length ≤ q.length → q.take a.length = a
  | [], _, _, _, _ => rfl
  | _ :: _, [], _, _, hle => by simp at hle
  | c :: cs, q :: qs, b, h, hle => by
    simp only [List.cons_append, begins, Bool.and_eq_true, beq_iff_eq] at h
    simp only [List.length_cons, List.take_succ_cons,
      take_eq_of_begins_append cs qs b h.2 (Nat.le_of_succ_le_succ hle), h.1]

theorem hasSub_cons (pat : List Char) (c : Char) (s : List Char) :
    hasSub pat (c :: s) = (begins pat (c :: s) || hasSub pat s) := rfl

theorem hasSub_of_begins : ∀ (pat s : List Char), begins pat s = true → hasSub pat s = true
  | pat, [], h => h
  | pat, c :: s, h => by simp [hasSub_cons, h]

theorem hasSub_length_le : ∀ (pat s : List Char), hasSub pat s = true → pat.length ≤ s.length
  | pat, [], h => begins_length_le pat [] h
  | pat, c :: s, h => by
    rw [hasSub_cons] at h
    rcases bor_elim h with h1 | h2
    · exact begins_length_le _ _ h1
    · exact Nat.le_succ_of_le (hasSub_length_le pat s h2)

theorem hasSub_append_right : ∀ (a pat b : List Char),
    hasSub pat b = true → hasSub pat (a ++ b) = true
  | [], _, _, h => h
  | c :: a, pat, b, h => by
    rw [List.cons_append, hasSub_cons]
    simp [hasSub_append_right a pat b h]

theorem hasSub_append_left : ∀ (a pat b : List Char),
    hasSub pat a = true → hasSub pat (a ++ b) = true
  | [], pat, b, h => by
    cases pat with
    | nil => exact hasSub_of_begins [] b rfl
    | cons p ps => simp [hasSub, begins] at h
  | c :: a, pat, b, h => by
    rw [hasSub_cons] at h
    rcases bor_elim h with h1 | h2
    · exact hasSub_of_begins _ _ (begins_mono pat (c :: a) h1 b)
    · rw [List.cons_append, hasSub_cons]
      simp [hasSub_append_left a pat b h2]

theorem hasSub_append_cases : ∀ (a pat b : List Char), hasSub pat (a ++ b) = true →
    hasSub pat a = true ∨ hasSub pat b = true ∨
      ∃ k, 0 < k ∧ k < pat.length ∧ begins (pat.drop k) b = true
  | [], pat, b, h => Or.inr (Or.inl h)
  | c :: a, pat, b, h => by
    rw [List.cons_append, hasSub_cons] at h
    rcases bor_elim h with h1 | h2
    · rcases le_or_lt pat.length (a.length + 1) with hle | hlt
      · left
        have hb : begins pat (c :: a) = true := by
          have := begins_of_le_append pat (c :: a) b (by simpa using hle)
          rw [← this]; exact h1
        exact hasSub_of_begins _ _ hb
      · right; right
        refine ⟨a.length + 1, Nat.succ_pos _, hlt, ?_⟩
        have := begins_drop_of_append (c :: a) pat b h1 (Nat.le_of_lt (by simpa using hlt))
        simpa using this
    · rcases hasSub_append_cases a pat b h2 with h3 | h3 | h3
      · left; rw [hasSub_cons]; simp [h3]
      · exact Or.inr (Or.inl h3)
      · exact Or.inr (Or.inr h3)

/-- No nonempty proper suffix of `pat` that starts an occurrence can continue
into `b`: used to rule out matches spanning the boundary of `a ++ b`. -/
def crossOK (pat b : List Char) : Bool :=
  (List.range pat.length).all fun k => k == 0 || !(begins (pat.drop k) b)

theorem crossOK_spec (pat b : List Char) (h : crossOK pat b = true) :
    ∀ k, 0 < k → k < pat.length → begins (pat.drop k) b = false := by
  intro k hk hlt
  have h2 := (List.all_eq_true.mp h) k (List.mem_range.mpr hlt)
  rcases bor_elim h2 with h3 | h3
  · exact absurd ((by simpa using h3 : k = 0)) (Nat.pos_iff_ne_zero.mp hk)
  · simpa using h3

theorem hasSub_append_elim (pat a b : List Char) (hc : crossOK pat b = true)
    (hb : hasSub pat b = false) (h : hasSub pat (a ++ b) = true) : hasSub pat a = true := by
  rcases hasSub_append_cases a pat b h with h1 | h2 | ⟨k, hk0, hkl, hbg⟩
  · exact h1
  · rw [hb] at h2; exact absurd h2 (by simp)
  · rw [crossOK_spec pat b hc k hk0 hkl] at hbg; exact absurd hbg (by simp)

/-- Fuel-indexed worker for `replaceAll`; the fuel dominates the length of the
string being scanned, so the zero-fuel case is never reached in `replaceAll`. -/
def replaceAllAux (p : Char) (ps : List Char) : Nat → List Char → List Char
  | 0, s => s
  | _ + 1, [] => []
  | n + 1, c :: rest =>
    if begins (p :: ps) (c :: rest) then replaceAllAux p ps n (rest.drop ps.length)
    else c :: replaceAllAux p ps n rest

/-- Model of Python `str.replace(pat, '')` for the nonempty pattern `p :: ps`:
repeatedly delete the leftmost occurrence and resume scanning after it. -/
def replaceAll (p : Char) (ps : List Char) (s : List Char) : List Char :=
  replaceAllAux p ps s.length s

theorem replaceAllAux_irrel (p : Char) (ps : List Char) :
    ∀ (n m : Nat) (s : List Char), s.length ≤ n → s.length ≤ m →
      replaceAllAux p ps n s = replaceAllAux p ps m s
  | 0, m, s, hn, _ => by
    have hs : s = [] := List.length_eq_zero.mp (Nat.le_zero.mp hn)
    subst hs
    cases m <;> rfl
  | n + 1, m, [], _, _ => by cases m <;> rfl
  | n + 1, 0, c :: rest, _, hm => by simp at hm
  | n + 1, m + 1, c :: rest, hn, hm => by
    simp only [List.length_cons] at hn hm
    simp only [replaceAllAux]
    by_cases hb : begins (p :: ps) (c :: rest) = true
    · rw [if_pos hb, if_pos hb]
      have hd : (rest.drop ps.length).length ≤ n := by
        rw [List.length_drop]; omega
      have hd2 : (rest.drop ps.length).length ≤ m := by
        rw [List.length_drop]; omega
      exact replaceAllAux_irrel p ps n m _ hd hd2
    · rw [if_neg hb, if_neg hb]
      rw [replaceAllAux_irrel p ps n m rest (by omega) (by omega)]

theorem replaceAll_nil (p : Char) (ps : List Char) : replaceAll p ps [] = [] := rfl

theorem replaceAll_cons (p c : Char) (ps rest : List Char) :
    replaceAll p ps (c :: rest) =
      if begins (p :: ps) (c :: rest) then replaceAll p ps (rest.drop ps.length)
      else c :: replaceAll p ps rest := by
  show replaceAllAux p ps (rest.length + 1) (c :: rest) = _
  simp only [replaceAllAux]
  by_cases hb : begins (p :: ps) (c :: rest) = true
  · rw [if_pos hb, if_pos hb]
    exact replaceAllAux_irrel p ps rest.length _ _ (by rw [List.length_drop]; omega)
      (Nat.le_refl _)
  · rw [if_neg hb, if_neg hb]
    rfl

theorem replaceAll_not_hasSub (p : Char) (ps : List Char) :
    ∀ s : List Char, hasSub (p :: ps) s = false → replaceAll p ps s = s
  | [], _ => rfl
  | c :: rest, h => by
    rw [hasSub_cons] at h
    have h1 : begins (p :: ps) (c :: rest) = false := by
      cases hb : begins (p :: ps) (c :: rest) <;> simp [hb] at h ⊢
    have h2 : hasSub (p :: ps) rest = false := by
      cases hh : hasSub (p :: ps) rest <;> simp [hh, h1] at h ⊢
    rw [replaceAll_cons, if_neg (by simp [h1]), replaceAll_not_hasSub p ps rest h2]

theorem replaceAll_head (p : Char) (ps t : List Char) :
    replaceAll p ps ((p :: ps) ++ t) = replaceAll p ps t := by
  have hb : begins (p :: ps) (p :: (ps ++ t)) = true := by
    have h := begins_append_self (p :: ps) t
    rwa [List.cons_append] at h
  rw [List.cons_append, replaceAll_cons, if_pos hb, List.drop_left]

theorem length_replaceAll_le_aux (p : Char) (ps : List Char) :
    ∀ (n : Nat) (s : List Char), s.length ≤ n → (replaceAll p ps s).length ≤ s.length
  | 0, s, h => by
    have hs : s = [] := List.length_eq_zero.mp (Nat.le_zero.mp h)
    subst hs; simp [replaceAll_nil]
  | n + 1, [], _ => by simp [replaceAll_nil]
  | n + 1, c :: rest, h => by
    simp only [List.length_cons] at h
    rw [replaceAll_cons]
    by_cases hb : begins (p :: ps) (c :: rest) = true
    · rw [if_pos hb]
      have h1 : (rest.drop ps.length).length ≤ n := by rw [List.length_drop]; omega
      have h2 := length_replaceAll_le_aux p ps n (rest.drop ps.length) h1
      rw [List.length_drop] at h2
      simp only [List.length_cons]
      omega
    · rw [if_neg hb]
      simp only [List.length_cons]
      exact Nat.succ_le_succ (length_replaceAll_le_aux p ps n rest (by omega))

theorem length_replaceAll_le (p : Char) (ps s : List Char) :
    (replaceAll p ps s).length ≤ s.length :=
  length_replaceAll_le_aux p ps s.length s (Nat.le_refl _)

theorem length_replaceAll_occ_aux (p : Char) (ps : List Char) :
    ∀ (n : Nat) (s : List Char), s.length ≤ n → hasSub (p :: ps) s = true →
      (replaceAll p ps s).length + (ps.length + 1) ≤ s.length
  | 0, s, h, hocc => by
    have hs : s = [] := List.length_eq_zero.mp (Nat.le_zero.mp h)
    subst hs; simp [hasSub, begins] at hocc
  | n + 1, [], _, hocc => by simp [hasSub, begins] at hocc
  | n + 1, c :: rest, h, hocc => by
    simp only [List.length_cons] at h
    rw [replaceAll_cons]
    by_cases hb : begins (p :: ps) (c :: rest) = true
    · rw [if_pos hb]
      have hlen : ps.length ≤ rest.length := by
        have := begins_length_le _ _ hb
        simpa using this
      have h2 := length_replaceAll_le p ps (rest.drop ps.length)
      rw [List.length_drop] at h2
      simp only [List.length_cons]
      omega
    · rw [if_neg hb]
      rw [hasSub_cons] at hocc
      rcases bor_elim hocc with h1 | h2
      · exact absurd h1 hb
      · have := length_replaceAll_occ_aux p ps n rest (by omega) h2
        simp only [List.length_cons]
        omega

theorem length_replaceAll_occ (p : Char) (ps s : List Char)
    (hocc : hasSub (p :: ps) s = true) :
    (replaceAll p ps s).length + (ps.length + 1) ≤ s.length :=
  length_replaceAll_occ_aux p ps s.length s (Nat.le_refl _) hocc

/-- A pattern is unbordered when no nonempty proper initial segment of it is
also a final segment; both `snapshot_` and `.rpl` are unbordered. -/
def unbordered (pat : List Char) : Bool :=
  (List.range pat.length).all fun k =>
    k == 0 || decide (pat.take k ≠ pat.drop (pat.length - k))

theorem unbordered_spec (pat : List Char) (h : unbordered pat = true) :
    ∀ k, 0 < k → k < pat.length → pat.take k ≠ pat.drop (pat.length - k) := by
  intro k hk hlt
  have h2 := (List.all_eq_true.mp h) k (List.mem_range.mpr hlt)
  rcases bor_elim h2 with h3 | h3
  · exact absurd ((by simpa using h3 : k = 0)) (Nat.pos_iff_ne_zero.mp hk)
  · exact of_decide_eq_true h3

theorem replaceAll_append_self (p : Char) (ps : List Char)
    (hu : unbordered (p :: ps) = true) :
    ∀ v : List Char, hasSub (p :: ps) v = false → replaceAll p ps (v ++ (p :: ps)) = v
  | [], _ => by
    have h := replaceAll_head p ps []
    rw [List.append_nil] at h
    rw [List.nil_append, h, replaceAll_nil]
  | c :: v2, hv => by
    rw [hasSub_cons] at hv
    have h1 : begins (p :: ps) (c :: v2) = false := by
      cases hb : begins (p :: ps) (c :: v2) <;> simp [hb] at hv ⊢
    have h2 : hasSub (p :: ps) v2 = false := by
      cases hh : hasSub (p :: ps) v2 <;> simp [hh, h1] at hv ⊢
    have hb : begins (p :: ps) ((c :: v2) ++ (p :: ps)) = false := by
      cases hbe : begins (p :: ps) ((c :: v2) ++ (p :: ps)) with
      | false => rfl
      | true =>
        exfalso
        rcases le_or_lt (p :: ps).length (c :: v2).length with hle | hlt
        · have hcontra : begins (p :: ps) (c :: v2) = true := by
            rw [← begins_of_le_append (p :: ps) (c :: v2) (p :: ps) hle]
            exact hbe
          rw [h1] at hcontra
          exact absurd hcontra (by simp)
        · have hdrop : begins ((p :: ps).drop (c :: v2).length) (p :: ps) = true :=
            begins_drop_of_append (c :: v2) (p :: ps) (p :: ps) hbe (Nat.le_of_lt hlt)
          have htake2 : (p :: ps).take ((p :: ps).length - (c :: v2).length) =
              (p :: ps).drop (c :: v2).length := by
            have h3 := begins_take_eq _ _ hdrop
            rw [List.length_drop] at h3
            exact h3
          have hk0 : 0 < (p :: ps).length - (c :: v2).length := by
            simp only [List.length_cons] at hlt ⊢
            omega
          have hklt : (p :: ps).length - (c :: v2).length < (p :: ps).length := by
            simp only [List.length_cons]
            omega
          apply unbordered_spec _ hu _ hk0 hklt
          rw [htake2]
          congr 1
          simp only [List.length_cons] at hlt ⊢
          omega
    rw [List.cons_append, replaceAll_cons, if_neg (by rw [← List.cons_append, hb]; simp),
      replaceAll_append_self p ps hu v2 h2]

theorem length_replaceAll_tail_aux (p : Char) (ps : List Char) :
    ∀ (n : Nat) (v : List Char), v.length ≤ n → hasSub (p :: ps) v = true →
      (replaceAll p ps (v ++ (p :: ps))).length + (ps.length + 1) ≤ v.length
  | 0, v, h, hocc => by
    have hv : v = [] := List.length_eq_zero.mp (Nat.le_zero.mp h)
    subst hv; simp [hasSub, begins] at hocc
  | _ + 1, [], _, hocc => by simp [hasSub, begins] at hocc
  | n + 1, c :: v2, h, hocc => by
    simp only [List.length_cons] at h
    rw [List.cons_append, replaceAll_cons]
    by_cases hb : begins (p :: ps) (c :: (v2 ++ (p :: ps))) = true
    · rw [if_pos hb]
      have hpl : ps.length ≤ v2.length := by
        have := hasSub_length_le (p :: ps) (c :: v2) hocc
        simpa using this
      have hdrop : (v2 ++ (p :: ps)).drop ps.length = v2.drop ps.length ++ (p :: ps) :=
        List.drop_append_of_le_length hpl
      rw [hdrop]
      have htailocc : hasSub (p :: ps) (v2.drop ps.length ++ (p :: ps)) = true :=
        hasSub_append_right _ _ _ (hasSub_of_begins _ _ (begins_refl _))
      have h3 := length_replaceAll_occ p ps _ htailocc
      rw [List.length_append, List.length_drop] at h3
      simp only [List.length_cons] at h3 ⊢
      omega
    · rw [if_neg hb]
      have h1 : begins (p :: ps) (c :: v2) = false := by
        cases hbe : begins (p :: ps) (c :: v2) with
        | false => rfl
        | true =>
          exfalso
          have h4 := begins_mono (p :: ps) (c :: v2) hbe (p :: ps)
          rw [List.cons_append] at h4
          exact hb h4
      have h2 : hasSub (p :: ps) v2 = true := by
        rw [hasSub_cons] at hocc
        rcases bor_elim hocc with hx | hx
        · rw [h1] at hx; exact absurd hx (by simp)
        · exact hx
      have h5 := length_replaceAll_tail_aux p ps n v2 (by omega) h2
      simp only [List.length_cons]
      omega

theorem length_replaceAll_tail (p : Char) (ps v : List Char)
    (hocc : hasSub (p :: ps) v = true) :
    (replaceAll p ps (v ++ (p :: ps))).length + (ps.length + 1) ≤ v.length :=
  length_replaceAll_tail_aux p ps v.length v (Nat.le_refl _) hocc

/-- Characters of the metadata directory name `.rpl`. -/
def rplE : List Char := ".rpl".data

/-- Characters of the snapshot file name stem `snapshot_`. -/
def snapPat : List Char := "snapshot_".data

/-- Python `s.replace('snapshot_', '')`, as used by `list_snapshots`. -/
def remSnap (s : List Char) : List Char := replaceAll 's' ("napshot_".data) s

/-- Python `s.replace('.rpl', '')`, as used by `list_snapshots`. -/
def remRpl (s : List Char) : List Char := replaceAll '.' ("rpl".data) s

/-- The version label shown by `list_snapshots` for a stored file name:
`file.replace('snapshot_', '').replace('.rpl', '')`. -/
def stripLabel (f : List Char) : List Char := remRpl (remSnap f)

/-- The stored snapshot file name for a caller-supplied version label
(`RPLSnapshot.__init__`: `f'snapshot_\x7bversion\x7d.rpl'`). -/
def snapshotFileName (v : List Char) : List Char := snapPat ++ v ++ rplE

theorem snapPat_cons : snapPat = 's' :: "napshot_".data := by decide

theorem rplE_cons : rplE = '.' :: "rpl".data := by decide

theorem remSnap_fileName (v : List Char) (h1 : hasSub snapPat v = false) :
    remSnap (snapshotFileName v) = v ++ rplE := by
  have e1 : snapshotFileName v = ('s' :: "napshot_".data) ++ (v ++ rplE) := by
    rw [snapshotFileName, List.append_assoc, snapPat_cons]
  rw [remSnap, e1, replaceAll_head]
  apply replaceAll_not_hasSub
  cases hcon : hasSub ('s' :: "napshot_".data) (v ++ rplE) with
  | false => rfl
  | true =>
    exfalso
    have h2 := hasSub_append_elim ('s' :: "napshot_".data) v rplE (by decide) (by decide) hcon
    rw [← snapPat_cons, h1] at h2
    exact absurd h2 (by simp)

theorem stripLabel_eq_of_clean (v : List Char) (h1 : hasSub snapPat v = false)
    (h2 : hasSub rplE v = false) : stripLabel (snapshotFileName v) = v := by
  rw [stripLabel, remSnap_fileName v h1, remRpl, rplE_cons]
  apply replaceAll_append_self '.' ("rpl".data) (by decide)
  rw [← rplE_cons]
  exact h2

theorem stripLabel_short_of_snap (v : List Char) (h1 : hasSub snapPat v = true) :
    (stripLabel (snapshotFileName v)).length < v.length := by
  have e1 : snapshotFileName v = ('s' :: "napshot_".data) ++ (v ++ rplE) := by
    rw [snapshotFileName, List.append_assoc, snapPat_cons]
  have e2 : remSnap (snapshotFileName v) = replaceAll 's' ("napshot_".data) (v ++ rplE) := by
    rw [remSnap, e1, replaceAll_head]
  have hocc : hasSub ('s' :: "napshot_".data) (v ++ rplE) = true := by
    have h3 := hasSub_append_left v snapPat rplE h1
    rwa [snapPat_cons] at h3
  have hlen1 := length_replaceAll_occ 's' ("napshot_".data) (v ++ rplE) hocc
  have hlen2 := length_replaceAll_le '.' ("rpl".data) (remSnap (snapshotFileName v))
  have e3 : (stripLabel (snapshotFileName v)).length ≤
      (remSnap (snapshotFileName v)).length := hlen2
  rw [e2] at e3
  rw [List.length_append] at hlen1
  have hrpl4 : rplE.length = 4 := by decide
  have hnap8 : ("napshot_".data).length = 8 := by decide
  omega

theorem stripLabel_short_of_rpl (v : List Char) (h1 : hasSub snapPat v = false)
    (h2 : hasSub rplE v = true) : (stripLabel (snapshotFileName v)).length < v.length := by
  have e1 : stripLabel (snapshotFileName v) =
      replaceAll '.' ("rpl".data) (v ++ ('.' :: "rpl".data)) := by
    rw [stripLabel, remSnap_fileName v h1, remRpl, rplE_cons]
  have h2' : hasSub ('.' :: "rpl".data) v = true := by rwa [← rplE_cons]
  have hlen := length_replaceAll_tail '.' ("rpl".data) v h2'
  have hv4 : 4 ≤ v.length := by
    have h3 := hasSub_length_le _ _ h2'
    simpa using h3
  rw [e1]
  have hrl3 : ("rpl".data).length = 3 := by decide
  omega

/-!
Model of the file system and of the RPL operations.  A relative path is a
list of path segments (each a list of characters); joining with `/` gives
the path string the Python code manipulates.  The absolute project root is
assumed not to contain `.rpl` as a substring, so the check `'.rpl' in root`
on an absolute path coincides with the check on the relative path string.
-/

/-- One path segment (a file or directory name). -/
abbrev Seg := List Char

/-- A relative path, as the list of its segments. -/
abbrev RelPath := List Seg

/-- Byte content of a file. -/
abbrev Content := List Nat

/-- Join path segments with `/`, producing the relative path string. -/
def joinP : RelPath → List Char
  | [] => []
  | s :: rest =>
    match rest with
    | [] => s
    | _ :: _ => s ++ '/' :: joinP rest

/-- The metadata directory name `.rpl` as a path segment. -/
def rplSeg : Seg := ".rpl".data

/-- Replacement of unsafe characters by `_`
(`rel_path.replace('/', '_').replace('\\', '_').replace(':', '_')`);
since the three replaced characters are single characters and `_` is none
of them, the three sequential one-character replacements act independently,
character by character. -/
def safeChar (c : Char) : Char :=
  if c = '/' ∨ c = '\\' ∨ c = ':' then '_' else c

/-- Sanitized form of a relative path string. -/
def sanitize (s : List Char) : List Char := s.map safeChar

/-- Backup blob name used by `RPLSnapshot.save_file_content`:
the sanitized relative path followed by `.bak`. -/
def safeName (s : List Char) : List Char := sanitize s ++ ".bak".data

/-- What the scanner observes about a file on disk.  `ok`: fully readable.
`copyFail`: content cannot be read (copy and hash fail) but `os.path.getsize`
and `os.path.getmtime` still succeed (e.g. permissions).  `vanished`: the file
disappeared between the directory listing and the per-file calls, so the
copy fails and then `os.path.getsize` raises. -/
inductive FStatus where
  | ok : FStatus
  | copyFail : FStatus
  | vanished : FStatus
deriving DecidableEq, Repr

/-- One file of the project tree presented to the scanner. -/
structure PFile where
  path : RelPath
  content : Content
  mtime : Nat
  status : FStatus
deriving DecidableEq, Repr

/-- A project tree: all directories (in the order `os.walk` visits them,
the walk being top-down and not pruned) and all files. -/
structure PTree where
  dirs : List RelPath
  files : List PFile
deriving DecidableEq, Repr

/-- The record stored per file in a snapshot (`file_info` in
`scan_project_structure`; the constant `encoding` field is omitted). -/
structure FileRec where
  size : Nat
  mtime : Nat
  hash : Content
  backup : Option (List Char)
deriving DecidableEq, Repr

/-- The in-memory snapshot structure (`structure` in
`scan_project_structure`): directories, the file dictionary in insertion
order, and the aggregate metadata counters. -/
structure Snap where
  dirs : List RelPath
  files : List (RelPath × FileRec)
  fileCount : Nat
  totalSize : Nat
deriving DecidableEq, Repr

/-- The backup directory: blob name to blob bytes; writes prepend, and
lookup takes the first match, so a later write to the same name overwrites
an earlier one, as `shutil.copy2` does. -/
abbrev Blobs := List (List Char × Content)

/-- First-match lookup in the blob store. -/
def lookupBlob : Blobs → List Char → Option Content
  | [], _ => none
  | (m, c) :: rest, n => if m = n then some c else lookupBlob rest n

namespace RPLSnapshot

/-- The `os.walk` roots: the project root itself followed by every
directory of the tree. -/
def wroots (t : PTree) : List RelPath := [] :: t.dirs

/-- Immediate subdirectories of the root `r`, in tree order. -/
def childDirs (r : RelPath) (ds : List RelPath) : List RelPath :=
  ds.filter fun d => decide (d.dropLast = r ∧ d ≠ [])

/-- Files directly inside the root `r`, in tree order. -/
def childFiles (r : RelPath) (fs : List PFile) : List PFile :=
  fs.filter fun f => decide (f.path.dropLast = r ∧ f.path ≠ [])

/-- Last path segment of a directory path. -/
def lastSeg (d : RelPath) : Seg := d.getLastD []

/-- The per-file body of the scanner loop (`save_file_content` followed by
building `file_info`).  On `vanished` the copy fails, then
`os.path.getsize` raises and the surrounding `except` skips the record
entirely; on `copyFail` the record is kept with a null backup reference and
an empty-string hash; on `ok` the blob is written and the record keeps its
name and the MD5 hash of the content. -/
def scanFile (md5 : Content → Content) (acc : Snap × Blobs) (f : PFile) : Snap × Blobs :=
  match f.status with
  | FStatus.vanished => acc
  | FStatus.copyFail =>
    ({ acc.1 with
        files := acc.1.files ++ [(f.path, ⟨f.content.length, f.mtime, [], none⟩)],
        fileCount := acc.1.fileCount + 1,
        totalSize := acc.1.totalSize + f.content.length }, acc.2)
  | FStatus.ok =>
    let nm := safeName (joinP f.path)
    ({ acc.1 with
        files := acc.1.files ++ [(f.path, ⟨f.content.length, f.mtime, md5 f.content, some nm⟩)],
        fileCount := acc.1.fileCount + 1,
        totalSize := acc.1.totalSize + f.content.length },
      (nm, f.content) :: acc.2)

/-- Processing of one `os.walk` root: skipped entirely when the root's path
string contains `.rpl` as a substring (`if '.rpl' in root: continue`);
otherwise child directories other than one named exactly `.rpl` are
appended, then each child file is processed. -/
def scanRoot (md5 : Content → Content) (t : PTree) (acc : Snap × Blobs) (r : RelPath) :
    Snap × Blobs :=
  if hasSub rplE (joinP r) then acc
  else
    let acc1 := ({ acc.1 with
      dirs := acc.1.dirs ++ (childDirs r t.dirs).filter fun d => decide (lastSeg d ≠ rplSeg) },
      acc.2)
    (childFiles r t.files).foldl (scanFile md5) acc1

/-- `RPLSnapshot.scan_project_structure`: walk every root and build the
snapshot structure together with the backup blob store. -/
def scan_project_structure (md5 : Content → Content) (t : PTree) : Snap × Blobs :=
  (wroots t).foldl (scanRoot md5 t) (⟨[], [], 0, 0⟩, [])

/-- `RPLSnapshot.create_snapshot`: scan, then persist the structure in
durable and human-readable form; serialization is modelled as exact
round-trip, and the whole operation returns `true` (per-file errors were
already contained inside the scan). -/
def create_snapshot (md5 : Content → Content) (t : PTree) : Bool × Snap × Blobs :=
  (true, scan_project_structure md5 t)

/-- State of the project directory used by the restore engine. -/
structure FSState where
  dirs : List RelPath
  files : List (RelPath × Content × Nat)
deriving DecidableEq, Repr

/-- The confirmation test of `restore_snapshot`:
`confirm.lower() in ['s', 'sim', 'y', 'yes']`. -/
def confirmOk (ans : List Char) : Bool :=
  let low := ans.map Char.toLower
  decide (low = "s".data) || decide (low = "sim".data) ||
    decide (low = "y".data) || decide (low = "yes".data)

/-- `RPLSnapshot.clean_project`: remove every top-level entry except the one
named exactly `.rpl`; entries below a surviving top-level entry survive
with it. -/
def clean_project (st : FSState) : FSState :=
  { dirs := st.dirs.filter fun d => decide (d.headD [] = rplSeg),
    files := st.files.filter fun f => decide (f.1.headD [] = rplSeg) }

/-- All nonempty initial segments of a path: the directories
`os.makedirs(..., exist_ok=True)` brings into existence. -/
def ancestors (p : RelPath) : List RelPath :=
  (List.range p.length).map fun k => p.take (k + 1)

/-- Create a directory and its missing ancestors (`os.makedirs` with
`exist_ok=True`). -/
def addDirs (ds : List RelPath) (p : RelPath) : List RelPath :=
  ds ++ (ancestors p).filter fun q => decide (q ∉ ds)

/-- Write a file, overwriting any previous entry at the same path. -/
def writeFile (fs : List (RelPath × Content × Nat)) (p : RelPath) (c : Content) (m : Nat) :
    List (RelPath × Content × Nat) :=
  (p, c, m) :: fs.filter fun e => decide (e.1 ≠ p)

/-- `RPLSnapshot.restore_file_content` for one record, threading the count
of successfully restored files: a record without a backup reference, or
whose blob is missing, is counted as a failure; otherwise the parent
directories are created, the blob bytes are copied to the file's path and
the recorded modification time is reapplied. -/
def restoreFile (blobs : Blobs) (acc : Nat × FSState) (entry : RelPath × FileRec) :
    Nat × FSState :=
  match entry.2.backup with
  | none => acc
  | some nm =>
    match lookupBlob blobs nm with
    | none => acc
    | some c =>
      let st := acc.2
      let st1 : FSState := { st with dirs := addDirs st.dirs entry.1.dropLast }
      (acc.1 + 1, { st1 with files := writeFile st1.files entry.1 c entry.2.mtime })

/-- `RPLSnapshot.restore_snapshot`: check the snapshot exists, ask for
confirmation, destructively clean the project, recreate the recorded
directories, then restore every file record; returns whether every record
was restored, together with the resulting project state. -/
def restore_snapshot (snapOpt : Option Snap) (blobs : Blobs) (ans : List Char)
    (cur : FSState) : Bool × FSState :=
  match snapOpt with
  | none => (false, cur)
  | some s =>
    if confirmOk ans then
      let st0 := clean_project cur
      let st1 : FSState := { st0 with dirs := s.dirs.foldl addDirs st0.dirs }
      let res := s.files.foldl (restoreFile blobs) (0, st1)
      (decide (res.1 = s.files.length), res.2)
    else (false, cur)

end RPLSnapshot

namespace RPLAutoSave

/-- Kind of a file-system change event. -/
inductive CType where
  | created : CType
  | modified : CType
  | deleted : CType
  | moved : CType
deriving DecidableEq, Repr

/-- One record of the change journal (`change_data`), together with the
capture timestamp that also names the record file.  A blob reference is the
pair of the sanitized relative path and the timestamp: the code joins the
two with `_` and appends `.bak`, and the timestamp string
`%Y%m%d_%H%M%S_%f` is fixed-width zero-padded, so the pair determines the
stored name and distinct timestamps give distinct names. -/
structure ChangeRec where
  time : Nat
  ctype : CType
  file : List Char
  backup : Option (List Char × Nat)
  fsize : Nat
deriving DecidableEq, Repr

/-- Journal state: the chronological list of change records (the files
`change_<timestamp>.json` of the changes directory) and the auto-save blob
directory. -/
structure JState where
  journal : List ChangeRec
  ablobs : List ((List Char × Nat) × Content)
deriving DecidableEq, Repr

/-- Contents of the watched tree at capture time, keyed by the path string
relative to the project root (the root itself is assumed free of `.rpl`). -/
abbrev WatchFS := List (List Char × Content)

/-- First-match lookup of a path in the watched tree. -/
def lookupFS : WatchFS → List Char → Option Content
  | [], _ => none
  | (m, c) :: rest, n => if m = n then some c else lookupFS rest n

/-- `RPLAutoSave.save_file_content` for an event at time `tm` on relative
path `path`: return the state unchanged when the path contains `.rpl` as a
substring or no longer exists (`if '.rpl' in filepath or not
os.path.exists(filepath): return`); otherwise copy the bytes into a fresh
blob for non-`deleted` kinds and append exactly one change record. -/
def save_file_content (fs : WatchFS) (tm : Nat) (path : List Char) (ty : CType)
    (st : JState) : JState :=
  if hasSub rplE path then st
  else
    match lookupFS fs path with
    | none => st
    | some content =>
      let nm := (sanitize path, tm)
      { journal := st.journal ++
          [⟨tm, ty, path, if ty = CType.deleted then none else some nm, content.length⟩],
        ablobs := if ty = CType.deleted then st.ablobs else (nm, content) :: st.ablobs }

/-- `AutoSaveHandler.on_moved`: record the source with kind `moved` at the
first capture time, then the destination with kind `created` at the second. -/
def on_moved (fs : WatchFS) (t1 t2 : Nat) (src dest : List Char) (st : JState) : JState :=
  save_file_content fs t2 dest CType.created (save_file_content fs t1 src CType.moved st)

end RPLAutoSave

namespace RPLManager

/-- One file of the snapshots directory as the lister sees it: its name,
its size on disk, and the result of `pickle.load` on it (`none` when
loading or parsing fails). -/
structure SnapEntry where
  fname : List Char
  size : Nat
  parsed : Option Snap
deriving DecidableEq, Repr

/-- Suffix test, modelling `file.endswith('.rpl')`. -/
def endsWithB (suf s : List Char) : Bool :=
  decide (suf.length ≤ s.length) && decide (s.drop (s.length - suf.length) = suf)

/-- The `(version, size, file_count, dir_count)` tuple appended per listed
file: the version label is the file name with `snapshot_` and `.rpl`
removed, and a file whose snapshot fails to parse keeps zero counts. -/
def entryOf (e : SnapEntry) : List Char × Nat × Nat × Nat :=
  (stripLabel e.fname, e.size,
    match e.parsed with
    | some s => (s.files.length, s.dirs.length)
    | none => (0, 0))

/-- Ascending insertion into an already sorted list. -/
def insertLe {α : Type} (le : α → α → Bool) (x : α) : List α → List α
  | [] => [x]
  | y :: ys => if le x y then x :: y :: ys else y :: insertLe le x ys

/-- Insertion sort, modelling Python's ascending `sorted`. -/
def sortLe {α : Type} (le : α → α → Bool) : List α → List α
  | [] => []
  | x :: xs => insertLe le x (sortLe le xs)

/-- Lexicographic string comparison by code point (Python `str` order). -/
def lexLe : List Char → List Char → Bool
  | [], _ => true
  | _ :: _, [] => false
  | a :: as, b :: bs => if a.toNat = b.toNat then lexLe as bs else decide (a.toNat < b.toNat)

/-- Python tuple comparison on `(version, size, file_count, dir_count)`. -/
def entryLe (x y : List Char × Nat × Nat × Nat) : Bool :=
  if x.1 = y.1 then
    if x.2.1 = y.2.1 then
      if x.2.2.1 = y.2.2.1 then decide (x.2.2.2 ≤ y.2.2.2)
      else decide (x.2.2.1 < y.2.2.1)
    else decide (x.2.1 < y.2.1)
  else lexLe x.1 y.1

/-- `RPLManager.list_snapshots`: keep the files ending in `.rpl`, build the
display tuple of each, and return them sorted ascending. -/
def list_snapshots (entries : List SnapEntry) : List (List Char × Nat × Nat × Nat) :=
  sortLe entryLe ((entries.filter fun e => endsWithB rplE e.fname).map entryOf)

end RPLManager

namespace RPLSnapshot

/-- Contribution of one file to the snapshot's file list. -/
def fileEntry (md5 : Content → Content) (f : PFile) : List (RelPath × FileRec) :=
  match f.status with
  | FStatus.vanished => []
  | FStatus.copyFail => [(f.path, ⟨f.content.length, f.mtime, [], none⟩)]
  | FStatus.ok =>
    [(f.path, ⟨f.content.length, f.mtime, md5 f.content, some (safeName (joinP f.path))⟩)]

/-- Contribution of one file to the blob store (newest first). -/
def blobEntry (f : PFile) : Blobs :=
  match f.status with
  | FStatus.ok => [(safeName (joinP f.path), f.content)]
  | _ => []

/-- Files contributed by one walk root. -/
def rootFiles (md5 : Content → Content) (t : PTree) (r : RelPath) :
    List (RelPath × FileRec) :=
  if hasSub rplE (joinP r) then [] else (childFiles r t.files).flatMap (fileEntry md5)

/-- Directories contributed by one walk root. -/
def rootDirs (t : PTree) (r : RelPath) : List RelPath :=
  if hasSub rplE (joinP r) then []
  else (childDirs r t.dirs).filter fun d => decide (lastSeg d ≠ rplSeg)

/-- Blobs contributed by one walk root, in capture order. -/
def rootBlobs (t : PTree) (r : RelPath) : Blobs :=
  if hasSub rplE (joinP r) then [] else (childFiles r t.files).flatMap blobEntry

theorem scanFile_files (md5 : Content → Content) (acc : Snap × Blobs) (f : PFile) :
    ((scanFile md5 acc f).1).files = acc.1.files ++ fileEntry md5 f := by
  cases hst : f.status <;> simp [scanFile, fileEntry, hst]

theorem scanFile_dirs (md5 : Content → Content) (acc : Snap × Blobs) (f : PFile) :
    ((scanFile md5 acc f).1).dirs = acc.1.dirs := by
  cases hst : f.status <;> simp [scanFile, hst]

theorem scanFile_blobs (md5 : Content → Content) (acc : Snap × Blobs) (f : PFile) :
    (scanFile md5 acc f).2 = blobEntry f ++ acc.2 := by
  cases hst : f.status <;> simp [scanFile, blobEntry, hst]

theorem foldl_scanFile_files (md5 : Content → Content) :
    ∀ (l : List PFile) (acc : Snap × Blobs),
      ((l.foldl (scanFile md5) acc).1).files = acc.1.files ++ l.flatMap (fileEntry md5)
  | [], acc => by simp
  | f :: l, acc => by
    rw [List.foldl_cons, foldl_scanFile_files md5 l _, scanFile_files, List.flatMap_cons,
      List.append_assoc]

theorem foldl_scanFile_dirs (md5 : Content → Content) :
    ∀ (l : List PFile) (acc : Snap × Blobs),
      ((l.foldl (scanFile md5) acc).1).dirs = acc.1.dirs
  | [], acc => rfl
  | f :: l, acc => by
    rw [List.foldl_cons, foldl_scanFile_dirs md5 l _, scanFile_dirs]

theorem blobEntry_reverse (f : PFile) : (blobEntry f).reverse = blobEntry f := by
  cases hst : f.status <;> simp [blobEntry, hst]

theorem foldl_scanFile_blobs (md5 : Content → Content) :
    ∀ (l : List PFile) (acc : Snap × Blobs),
      (l.foldl (scanFile md5) acc).2 = (l.flatMap blobEntry).reverse ++ acc.2
  | [], acc => by simp
  | f :: l, acc => by
    rw [List.foldl_cons, foldl_scanFile_blobs md5 l _, scanFile_blobs, List.flatMap_cons,
      List.reverse_append, List.append_assoc, blobEntry_reverse]

theorem scanRoot_files (md5 : Content → Content) (t : PTree) (acc : Snap × Blobs)
    (r : RelPath) : ((scanRoot md5 t acc r).1).files = acc.1.files ++ rootFiles md5 t r := by
  rw [scanRoot, rootFiles]
  by_cases h : hasSub rplE (joinP r) = true
  · rw [if_pos h, if_pos h, List.append_nil]
  · rw [if_neg h, if_neg h, foldl_scanFile_files]

theorem scanRoot_dirs (md5 : Content → Content) (t : PTree) (acc : Snap × Blobs)
    (r : RelPath) : ((scanRoot md5 t acc r).1).dirs = acc.1.dirs ++ rootDirs t r := by
  rw [scanRoot, rootDirs]
  by_cases h : hasSub rplE (joinP r) = true
  · rw [if_pos h, if_pos h, List.append_nil]
  · rw [if_neg h, if_neg h, foldl_scanFile_dirs]

theorem scanRoot_blobs (md5 : Content → Content) (t : PTree) (acc : Snap × Blobs)
    (r : RelPath) : (scanRoot md5 t acc r).2 = (rootBlobs t r).reverse ++ acc.2 := by
  rw [scanRoot, rootBlobs]
  by_cases h : hasSub rplE (joinP r) = true
  · rw [if_pos h, if_pos h]; rfl
  · rw [if_neg h, if_neg h, foldl_scanFile_blobs]

theorem foldl_scanRoot_files (md5 : Content → Content) (t : PTree) :
    ∀ (rs : List RelPath) (acc : Snap × Blobs),
      ((rs.foldl (scanRoot md5 t) acc).1).files =
        acc.1.files ++ rs.flatMap (rootFiles md5 t)
  | [], acc => by simp
  | r :: rs, acc => by
    rw [List.foldl_cons, foldl_scanRoot_files md5 t rs _, scanRoot_files, List.flatMap_cons,
      List.append_assoc]

theorem foldl_scanRoot_dirs (md5 : Content → Content) (t : PTree) :
    ∀ (rs : List RelPath) (acc : Snap × Blobs),
      ((rs.foldl (scanRoot md5 t) acc).1).dirs = acc.1.dirs ++ rs.flatMap (rootDirs t)
  | [], acc => by simp
  | r :: rs, acc => by
    rw [List.foldl_cons, foldl_scanRoot_dirs md5 t rs _, scanRoot_dirs, List.flatMap_cons,
      List.append_assoc]

theorem foldl_scanRoot_blobs (md5 : Content → Content) (t : PTree) :
    ∀ (rs : List RelPath) (acc : Snap × Blobs),
      (rs.foldl (scanRoot md5 t) acc).2 = (rs.flatMap (rootBlobs t)).reverse ++ acc.2
  | [], acc => by simp
  | r :: rs, acc => by
    rw [List.foldl_cons, foldl_scanRoot_blobs md5 t rs _, scanRoot_blobs, List.flatMap_cons,
      List.reverse_append, List.append_assoc]

theorem scan_files_eq (md5 : Content → Content) (t : PTree) :
    (scan_project_structure md5 t).1.files = (wroots t).flatMap (rootFiles md5 t) := by
  rw [scan_project_structure, foldl_scanRoot_files]
  rfl

theorem scan_dirs_eq (md5 : Content → Content) (t : PTree) :
    (scan_project_structure md5 t).1.dirs = (wroots t).flatMap (rootDirs t) := by
  rw [scan_project_structure, foldl_scanRoot_dirs]
  rfl

theorem scan_blobs_eq (md5 : Content → Content) (t : PTree) :
    (scan_project_structure md5 t).2 = ((wroots t).flatMap (rootBlobs t)).reverse := by
  rw [scan_project_structure, foldl_scanRoot_blobs, List.append_nil]

end RPLSnapshot

namespace RPLAutoSave

theorem save_skip_rpl (fs : WatchFS) (tm : Nat) (path : List Char) (ty : CType)
    (st : JState) (h : hasSub rplE path = true) :
    save_file_content fs tm path ty st = st := by
  rw [save_file_content, if_pos h]

theorem save_skip_missing (fs : WatchFS) (tm : Nat) (path : List Char) (ty : CType)
    (st : JState) (h1 : hasSub rplE path = false) (h2 : lookupFS fs path = none) :
    save_file_content fs tm path ty st = st := by
  rw [save_file_content, if_neg (by simp [h1]), h2]

theorem save_append (fs : WatchFS) (tm : Nat) (path : List Char) (ty : CType)
    (st : JState) (h1 : hasSub rplE path = false) (c : Content)
    (h2 : lookupFS fs path = some c) :
    save_file_content fs tm path ty st =
      { journal := st.journal ++ [⟨tm, ty, path,
          if ty = CType.deleted then none else some (sanitize path, tm), c.length⟩],
        ablobs := if ty = CType.deleted then st.ablobs
          else ((sanitize path, tm), c) :: st.ablobs } := by
  rw [save_file_content, if_neg (by simp [h1]), h2]

end RPLAutoSave

/-- C7: declining the restore confirmation is a clean cancellation: the
engine returns `false` and the project state is completely unchanged; the
existence check and the confirmation prompt both happen before any
destructive action, so nothing is deleted, created or modified. -/
theorem C7_restore_decline_no_side_effects (snapOpt : Option Snap) (blobs : Blobs)
    (ans : List Char) (cur : RPLSnapshot.FSState)
    (h : RPLSnapshot.confirmOk ans = false) :
    RPLSnapshot.restore_snapshot snapOpt blobs ans cur = (false, cur) := by
  cases snapOpt with
  | none => rfl
  | some s => rw [RPLSnapshot.restore_snapshot, if_neg (by simp [h])]

/-- Witness for C7 at a concrete state: answering `n` leaves a nonempty
project untouched. -/
theorem C7_restore_decline_witness :
    RPLSnapshot.restore_snapshot (some ⟨[], [], 0, 0⟩) [] ("n".data)
        ⟨[["d".data]], [(["f".data], [1, 2], 7)]⟩ =
      (false, ⟨[["d".data]], [(["f".data], [1, 2], 7)]⟩) :=
  C7_restore_decline_no_side_effects _ _ _ _ (by decide)

/-- C2 (amended): a `deleted` event for a path outside the metadata
directory is journalled only when the path still exists at capture time, in
which case exactly one record is appended, with a null blob reference and
the file's current size; when the path no longer exists the event is
silently ignored and no record is appended. -/
theorem C2_deleted_event_amended (fs : RPLAutoSave.WatchFS) (tm : Nat) (path : List Char)
    (st : RPLAutoSave.JState) (hclean : hasSub rplE path = false) :
    RPLAutoSave.save_file_content fs tm path RPLAutoSave.CType.deleted st =
      match RPLAutoSave.lookupFS fs path with
      | none => st
      | some c =>
        { journal := st.journal ++ [⟨tm, RPLAutoSave.CType.deleted, path, none, c.length⟩],
          ablobs := st.ablobs } := by
  rw [RPLAutoSave.save_file_content, if_neg (by simp [hclean])]
  cases h : RPLAutoSave.lookupFS fs path <;> simp

/-- C2 counterexample: a `deleted` event for `a.txt`, a path outside the
metadata directory that no longer exists at capture time, leaves the
journal empty: no record with size 0 is appended. -/
theorem C2_deleted_event_counterexample :
    RPLAutoSave.save_file_content [] 3 ("a.txt".data) RPLAutoSave.CType.deleted ⟨[], []⟩ =
      ⟨[], []⟩ := by decide

/-- Witness for C2 at a concrete input where the deleted path does still
exist: one deletion record with a null blob reference and the current size. -/
theorem C2_deleted_event_witness :
    RPLAutoSave.save_file_content [("b".data, [7, 8])] 5 ("b".data)
        RPLAutoSave.CType.deleted ⟨[], []⟩ =
      ⟨[⟨5, RPLAutoSave.CType.deleted, "b".data, none, 2⟩], []⟩ := by
  rw [C2_deleted_event_amended [("b".data, [7, 8])] 5 ("b".data) ⟨[], []⟩ (by decide)]
  decide

/-- C3 (amended): a `moved(A, B)` event appends one or two records: when the
source path still exists at capture time, the first record has kind `moved`
and references a fresh blob of A's current content (it is not
deletion-shaped); when the source is already gone — the usual case — no
record for A is appended at all.  In both cases a `created` record for B
referencing freshly captured content of B is appended last. -/
theorem C3_moved_event_amended (fs : RPLAutoSave.WatchFS) (t1 t2 : Nat)
    (src dest : List Char) (st : RPLAutoSave.JState)
    (hdclean : hasSub rplE dest = false) (cd : Content)
    (hdest : RPLAutoSave.lookupFS fs dest = some cd) :
    (RPLAutoSave.on_moved fs t1 t2 src dest st).journal =
      st.journal ++
        (if hasSub rplE src = true ∨ RPLAutoSave.lookupFS fs src = none then []
          else [⟨t1, RPLAutoSave.CType.moved, src, some (sanitize src, t1),
            ((RPLAutoSave.lookupFS fs src).getD []).length⟩]) ++
        [⟨t2, RPLAutoSave.CType.created, dest, some (sanitize dest, t2), cd.length⟩] := by
  rw [RPLAutoSave.on_moved]
  by_cases h1 : hasSub rplE src = true
  · rw [RPLAutoSave.save_skip_rpl fs t1 src RPLAutoSave.CType.moved st h1,
      RPLAutoSave.save_append fs t2 dest RPLAutoSave.CType.created st hdclean cd hdest]
    simp [h1]
  · cases h2 : RPLAutoSave.lookupFS fs src with
    | none =>
      rw [RPLAutoSave.save_skip_missing fs t1 src RPLAutoSave.CType.moved st
          (by simpa using h1) h2,
        RPLAutoSave.save_append fs t2 dest RPLAutoSave.CType.created st hdclean cd hdest]
      simp [h1, h2]
    | some cs =>
      rw [RPLAutoSave.save_append fs t1 src RPLAutoSave.CType.moved st
          (by simpa using h1) cs h2,
        RPLAutoSave.save_append fs t2 dest RPLAutoSave.CType.created _ hdclean cd hdest]
      simp [h1, h2]

/-- C3 counterexample: a realistic move, where the source path is already
gone when the event is handled, appends exactly one record (the `created`
record for the destination), not the two records the claim demands. -/
theorem C3_moved_event_counterexample :
    (RPLAutoSave.on_moved [("b.txt".data, [9])] 1 2 ("a.txt".data) ("b.txt".data)
        ⟨[], []⟩).journal =
      [⟨2, RPLAutoSave.CType.created, "b.txt".data, some ("b.txt".data, 2), 1⟩] := by
  decide

/-- Witness for C3 at a concrete input where the moved source still exists:
a `moved` record with a blob reference, then the `created` record. -/
theorem C3_moved_event_witness :
    (RPLAutoSave.on_moved [("a".data, [1]), ("b".data, [2, 3])] 1 2 ("a".data) ("b".data)
        ⟨[], []⟩).journal =
      [⟨1, RPLAutoSave.CType.moved, "a".data, some ("a".data, 1), 1⟩,
       ⟨2, RPLAutoSave.CType.created, "b".data, some ("b".data, 2), 2⟩] := by
  rw [C3_moved_event_amended [("a".data, [1]), ("b".data, [2, 3])] 1 2 ("a".data) ("b".data)
    ⟨[], []⟩ (by decide) [2, 3] (by decide)]
  decide

/-- C8: two `modified` events on the same clean, existing path at times
`t1 < t2` (microsecond resolution) append their records in that same
chronological order, and the two records reference distinct blobs, because
each blob name embeds the event timestamp. -/
theorem C8_journal_ordering (fs1 fs2 : RPLAutoSave.WatchFS) (t1 t2 : Nat)
    (p : List Char) (st : RPLAutoSave.JState) (c1 c2 : Content)
    (hclean : hasSub rplE p = false)
    (h1 : RPLAutoSave.lookupFS fs1 p = some c1)
    (h2 : RPLAutoSave.lookupFS fs2 p = some c2) (hlt : t1 < t2) :
    (RPLAutoSave.save_file_content fs2 t2 p RPLAutoSave.CType.modified
        (RPLAutoSave.save_file_content fs1 t1 p RPLAutoSave.CType.modified st)).journal =
      st.journal ++
        [⟨t1, RPLAutoSave.CType.modified, p, some (sanitize p, t1), c1.length⟩,
         ⟨t2, RPLAutoSave.CType.modified, p, some (sanitize p, t2), c2.length⟩] ∧
      (some (sanitize p, t1) : Option (List Char × Nat)) ≠ some (sanitize p, t2) := by
  constructor
  · rw [RPLAutoSave.save_append fs1 t1 p RPLAutoSave.CType.modified st hclean c1 h1,
      RPLAutoSave.save_append fs2 t2 p RPLAutoSave.CType.modified _ hclean c2 h2]
    simp
  · intro hcon
    have : t1 = t2 := by simpa using hcon
    omega

/-- Witness for C8 at a concrete path and pair of times. -/
theorem C8_journal_ordering_witness :
    (RPLAutoSave.save_file_content [("f".data, [4])] 9 ("f".data)
        RPLAutoSave.CType.modified
        (RPLAutoSave.save_file_content [("f".data, [3])] 8 ("f".data)
          RPLAutoSave.CType.modified ⟨[], []⟩)).journal =
      [⟨8, RPLAutoSave.CType.modified, "f".data, some ("f".data, 8), 1⟩,
       ⟨9, RPLAutoSave.CType.modified, "f".data, some ("f".data, 9), 1⟩] ∧
      (some (("f".data : List Char), 8) : Option (List Char × Nat)) ≠ some ("f".data, 9) := by
  have h := C8_journal_ordering [("f".data, [3])] [("f".data, [4])] 8 9 ("f".data)
    ⟨[], []⟩ [3] [4] (by decide) (by decide) (by decide) (by decide)
  exact ⟨by rw [h.1]; decide, by decide⟩

theorem rplSeg_eq_rplE : rplSeg = rplE := rfl

theorem hasSub_joinP_of_head (r : RelPath) (hne : r ≠ []) (hh : r.headD [] = rplSeg) :
    hasSub rplE (joinP r) = true := by
  cases r with
  | nil => exact absurd rfl hne
  | cons s rest =>
    have hs : s = rplSeg := by simpa using hh
    subst hs
    cases rest with
    | nil => exact hasSub_of_begins _ _ (begins_refl rplE)
    | cons x xs =>
      show hasSub rplE (rplSeg ++ '/' :: joinP (x :: xs)) = true
      exact hasSub_of_begins _ _ (begins_append_self rplE _)

namespace RPLSnapshot

theorem mem_scan_files (md5 : Content → Content) (t : PTree) (p : RelPath) (fr : FileRec)
    (h : (p, fr) ∈ (scan_project_structure md5 t).1.files) :
    ∃ f ∈ t.files, f.path = p ∧ p ≠ [] ∧ p.dropLast ∈ wroots t ∧
      hasSub rplE (joinP p.dropLast) = false ∧ (p, fr) ∈ fileEntry md5 f := by
  rw [scan_files_eq] at h
  rcases List.mem_flatMap.mp h with ⟨r, hr, hmem⟩
  rw [rootFiles] at hmem
  by_cases hskip : hasSub rplE (joinP r) = true
  · rw [if_pos hskip] at hmem; simp at hmem
  · rw [if_neg hskip] at hmem
    rcases List.mem_flatMap.mp hmem with ⟨f, hf, hfe⟩
    simp only [childFiles] at hf
    have hff := List.mem_filter.mp hf
    have hcond : f.path.dropLast = r ∧ f.path ≠ [] := of_decide_eq_true hff.2
    have hkey : p = f.path := by
      cases hst : f.status <;> simp [fileEntry, hst] at hfe
      · exact hfe.1
      · exact hfe.1
    refine ⟨f, hff.1, hkey.symm, ?_, ?_, ?_, hfe⟩
    · rw [hkey]; exact hcond.2
    · rw [hkey, hcond.1]; exact hr
    · rw [hkey, hcond.1]; simpa using hskip

theorem mem_scan_dirs (md5 : Content → Content) (t : PTree) (d : RelPath)
    (h : d ∈ (scan_project_structure md5 t).1.dirs) :
    d ∈ t.dirs ∧ d ≠ [] ∧ hasSub rplE (joinP d.dropLast) = false ∧ lastSeg d ≠ rplSeg := by
  rw [scan_dirs_eq] at h
  rcases List.mem_flatMap.mp h with ⟨r, hr, hmem⟩
  rw [rootDirs] at hmem
  by_cases hskip : hasSub rplE (joinP r) = true
  · rw [if_pos hskip] at hmem; simp at hmem
  · rw [if_neg hskip] at hmem
    have h1 := List.mem_filter.mp hmem
    simp only [childDirs] at h1
    have h2 := List.mem_filter.mp h1.1
    have hc1 : d.dropLast = r ∧ d ≠ [] := of_decide_eq_true h2.2
    have hc2 : lastSeg d ≠ rplSeg := of_decide_eq_true h1.2
    refine ⟨h2.1, hc1.2, ?_, hc2⟩
    rw [hc1.1]
    simpa using hskip

end RPLSnapshot

theorem headD_dropLast : ∀ (d : RelPath), 2 ≤ d.length → d.dropLast.headD [] = d.headD []
  | [], h => by simp at h
  | [a], h => by simp at h
  | a :: b :: rest, _ => by
    show (a :: (b :: rest).dropLast).headD [] = _
    rfl

/-- C5 (amended): the skip test in the code is substring containment of
`.rpl` in the path string, not a whole-segment match.  The metadata
directory and its contents indeed never appear in a snapshot: no recorded
directory and no recorded file of length at least two starts with the
segment `.rpl`.  However, the scanner records no file whose parent
directory path merely contains `.rpl` as a substring, and the change
journal ignores exactly the events whose path contains `.rpl` as a
substring or no longer exists: clean existing paths are always journalled. -/
theorem C5_metadata_exclusion_amended (md5 : Content → Content) (t : PTree) :
    (∀ d ∈ (RPLSnapshot.scan_project_structure md5 t).1.dirs, d.headD [] ≠ rplSeg) ∧
    (∀ p fr, (p, fr) ∈ (RPLSnapshot.scan_project_structure md5 t).1.files →
      2 ≤ p.length → p.headD [] ≠ rplSeg) ∧
    (∀ p fr, (p, fr) ∈ (RPLSnapshot.scan_project_structure md5 t).1.files →
      hasSub rplE (joinP p.dropLast) = false) ∧
    (∀ (fs : RPLAutoSave.WatchFS) (tm : Nat) (path : List Char)
      (ty : RPLAutoSave.CType) (st : RPLAutoSave.JState), hasSub rplE path = true →
      RPLAutoSave.save_file_content fs tm path ty st = st) ∧
    (∀ (fs : RPLAutoSave.WatchFS) (tm : Nat) (path : List Char)
      (ty : RPLAutoSave.CType) (st : RPLAutoSave.JState) (c : Content),
      hasSub rplE path = false → RPLAutoSave.lookupFS fs path = some c →
      (RPLAutoSave.save_file_content fs tm path ty st).journal = st.journal ++
        [⟨tm, ty, path, if ty = RPLAutoSave.CType.deleted then none
          else some (sanitize path, tm), c.length⟩]) := by
  refine ⟨?_, ?_, ?_, ?_, ?_⟩
  · intro d hd
    rcases RPLSnapshot.mem_scan_dirs md5 t d hd with ⟨hmem, hne, hclean, hlast⟩
    intro hhead
    rcases le_or_lt 2 d.length with h2 | h2
    · have hdl : d.dropLast ≠ [] := by
        intro hcon
        have := congrArg List.length hcon
        rw [List.length_dropLast] at this
        simp at this
        omega
      have hdh : d.dropLast.headD [] = rplSeg := by
        rw [headD_dropLast d h2, hhead]
      rw [hasSub_joinP_of_head d.dropLast hdl hdh] at hclean
      exact absurd hclean (by simp)
    · rcases d with _ | ⟨a, rest⟩
      · exact absurd rfl hne
      · have hr : rest = [] := by
          have hl : rest.length = 0 := by
            simp only [List.length_cons] at h2
            omega
          exact List.length_eq_zero.mp hl
        subst hr
        apply hlast
        simpa using hhead
  · intro p fr hp h2
    rcases RPLSnapshot.mem_scan_files md5 t p fr hp with ⟨f, _, _, hne, _, hclean, _⟩
    intro hhead
    have hdl : p.dropLast ≠ [] := by
      intro hcon
      have := congrArg List.length hcon
      rw [List.length_dropLast] at this
      simp at this
      omega
    have hdh : p.dropLast.headD [] = rplSeg := by
      rw [headD_dropLast p h2, hhead]
    rw [hasSub_joinP_of_head p.dropLast hdl hdh] at hclean
    exact absurd hclean (by simp)
  · intro p fr hp
    rcases RPLSnapshot.mem_scan_files md5 t p fr hp with ⟨f, _, _, _, _, hclean, _⟩
    exact hclean
  · intro fs tm path ty st h
    exact RPLAutoSave.save_skip_rpl fs tm path ty st h
  · intro fs tm path ty st c h1 h2
    rw [RPLAutoSave.save_append fs tm path ty st h1 c h2]

/-- C5 counterexample: a directory named `a.rplx` — which merely contains
`.rpl` as a substring and is not the metadata directory — is listed in the
snapshot but its file `a.rplx/f` is not scanned; and a `modified` event for
an existing file `a.rpl` that is not under the metadata directory is
silently ignored by the journal. -/
theorem C5_metadata_exclusion_counterexample :
    (RPLSnapshot.scan_project_structure (fun c => c)
        ⟨[["a.rplx".data]], [⟨["a.rplx".data, "f".data], [1], 0, FStatus.ok⟩]⟩).1.files =
      [] ∧
    (RPLSnapshot.scan_project_structure (fun c => c)
        ⟨[["a.rplx".data]], [⟨["a.rplx".data, "f".data], [1], 0, FStatus.ok⟩]⟩).1.dirs =
      [["a.rplx".data]] ∧
    RPLAutoSave.save_file_content [("a.rpl".data, [1])] 0 ("a.rpl".data)
        RPLAutoSave.CType.modified ⟨[], []⟩ = ⟨[], []⟩ := by decide

/-- Witness for C5 applying the amended theorem at a concrete tree and a
concrete journal event. -/
theorem C5_metadata_exclusion_witness :
    (["src".data] : RelPath).headD [] ≠ rplSeg ∧
      RPLAutoSave.save_file_content [] 0 (".rpl/x".data) RPLAutoSave.CType.modified
        ⟨[], []⟩ = ⟨[], []⟩ := by
  have h := C5_metadata_exclusion_amended (fun c => c)
    ⟨[["src".data]], [⟨["src".data, "a".data], [1], 0, FStatus.ok⟩]⟩
  constructor
  · exact h.1 ["src".data] (by decide)
  · exact h.2.2.2.1 [] 0 (".rpl/x".data) RPLAutoSave.CType.modified ⟨[], []⟩ (by decide)

theorem flatMap_const_nil {α β : Type} : ∀ l : List α, (l.flatMap fun _ => ([] : List β)) = []
  | [] => rfl
  | _ :: l => by rw [List.flatMap_cons, flatMap_const_nil l]; rfl

theorem flatMap_congr_mem {α β : Type} (F G : α → List β) :
    ∀ l : List α, (∀ x ∈ l, F x = G x) → l.flatMap F = l.flatMap G
  | [], _ => rfl
  | x :: l, h => by
    rw [List.flatMap_cons, List.flatMap_cons, h x (by simp),
      flatMap_congr_mem F G l fun y hy => h y (by simp [hy])]

theorem flatMap_filter_nil {α κ : Type} [DecidableEq κ] (key : α → κ) :
    ∀ roots : List κ,
      (roots.flatMap fun r => List.filter (fun x => decide (key x = r)) ([] : List α)) = []
  | [] => rfl
  | r :: rs => by rw [List.flatMap_cons, flatMap_filter_nil key rs]; rfl

/-- Each element of `xs` is collected exactly once when the key values are
grouped over a duplicate-free list of roots that covers every key. -/
theorem flatMap_filter_key_perm {α κ : Type} [DecidableEq κ] (key : α → κ) :
    ∀ (xs : List α) (roots : List κ), roots.Nodup → (∀ x ∈ xs, key x ∈ roots) →
      List.Perm (roots.flatMap fun r => xs.filter fun x => decide (key x = r)) xs
  | [], roots, _, _ => by
    rw [flatMap_filter_nil key roots]
  | x :: xs, roots, hnd, hcov => by
    rcases List.append_of_mem (hcov x (by simp)) with ⟨l1, l2, hsplit⟩
    subst hsplit
    have hx1 : key x ∉ l1 := by
      intro hmem
      exact List.disjoint_of_nodup_append hnd hmem (by simp)
    have hx2 : key x ∉ l2 := (List.nodup_cons.mp hnd.of_append_right).1
    have hstep : ∀ (l : List κ), key x ∉ l →
        (l.flatMap fun r => (x :: xs).filter fun y => decide (key y = r)) =
          l.flatMap fun r => xs.filter fun y => decide (key y = r) := by
      intro l hl
      apply flatMap_congr_mem
      intro r hr
      rw [List.filter_cons]
      have : ¬ key x = r := fun hc => hl (hc ▸ hr)
      rw [if_neg (by simpa using this)]
    have hmid : ((x :: xs).filter fun y => decide (key y = key x)) =
        x :: (xs.filter fun y => decide (key y = key x)) := by
      rw [List.filter_cons, if_pos (by simp)]
    rw [List.flatMap_append, List.flatMap_cons, hstep l1 hx1, hstep l2 hx2, hmid,
      List.cons_append]
    refine List.Perm.trans List.perm_middle (List.Perm.cons x ?_)
    have hflat : ((l1 ++ key x :: l2).flatMap fun r => xs.filter fun y => decide (key y = r)) =
        (l1.flatMap fun r => xs.filter fun y => decide (key y = r)) ++
          ((xs.filter fun y => decide (key y = key x)) ++
            (l2.flatMap fun r => xs.filter fun y => decide (key y = r))) := by
      rw [List.flatMap_append, List.flatMap_cons]
    rw [← hflat]
    have hnd2 : (l1 ++ key x :: l2).Nodup := hnd
    exact flatMap_filter_key_perm key xs (l1 ++ key x :: l2) hnd2
      fun y hy => hcov y (by simp [hy])

theorem flatMap_eq_map {α β : Type} (F : α → List β) (g : α → β) :
    ∀ l : List α, (∀ x ∈ l, F x = [g x]) → l.flatMap F = l.map g
  | [], _ => rfl
  | x :: l, h => by
    rw [List.flatMap_cons, h x (by simp),
      flatMap_eq_map F g l fun y hy => h y (by simp [hy]), List.map_cons,
      List.singleton_append]

namespace RPLSnapshot

/-- The snapshot record produced for a non-vanished file. -/
def recOf (md5 : Content → Content) (f : PFile) : RelPath × FileRec :=
  match f.status with
  | FStatus.copyFail => (f.path, ⟨f.content.length, f.mtime, [], none⟩)
  | _ => (f.path, ⟨f.content.length, f.mtime, md5 f.content, some (safeName (joinP f.path))⟩)

theorem fileEntry_eq_recOf (md5 : Content → Content) (f : PFile)
    (h : f.status ≠ FStatus.vanished) : fileEntry md5 f = [recOf md5 f] := by
  cases hst : f.status with
  | vanished => exact absurd hst h
  | copyFail => simp [fileEntry, recOf, hst]
  | ok => simp [fileEntry, recOf, hst]

/-- With well-formed, duplicate-free, `.rpl`-free directories, every
non-vanished file contributes exactly one record: the snapshot's file list
is a permutation of the per-file records. -/
theorem scan_files_perm (md5 : Content → Content) (t : PTree)
    (hcd : ∀ d ∈ t.dirs, hasSub rplE (joinP d) = false)
    (hdne : ∀ d ∈ t.dirs, d ≠ [])
    (hndd : t.dirs.Nodup)
    (hwf : ∀ f ∈ t.files, f.path ≠ [] ∧ f.path.dropLast ∈ wroots t)
    (hnv : ∀ f ∈ t.files, f.status ≠ FStatus.vanished) :
    List.Perm (scan_project_structure md5 t).1.files (t.files.map (recOf md5)) := by
  rw [scan_files_eq]
  have hclean : ∀ r ∈ wroots t, hasSub rplE (joinP r) = false := by
    intro r hr
    rcases List.mem_cons.mp hr with h | h
    · subst h; decide
    · exact hcd r h
  have h1 : ((wroots t).flatMap (rootFiles md5 t)) =
      (wroots t).flatMap fun r => (childFiles r t.files).flatMap (fileEntry md5) := by
    apply flatMap_congr_mem
    intro r hr
    rw [rootFiles, if_neg (by simp [hclean r hr])]
  rw [h1]
  have h2 : ((wroots t).flatMap fun r => (childFiles r t.files).flatMap (fileEntry md5)) =
      (wroots t).flatMap fun r => (childFiles r t.files).map (recOf md5) := by
    apply flatMap_congr_mem
    intro r _
    apply flatMap_eq_map
    intro f hf
    have hmem : f ∈ t.files := (List.mem_filter.mp (by simpa only [childFiles] using hf)).1
    exact fileEntry_eq_recOf md5 f (hnv f hmem)
  rw [h2]
  have h3 : ((wroots t).flatMap fun r => (childFiles r t.files).map (recOf md5)) =
      ((wroots t).flatMap fun r => childFiles r t.files).map (recOf md5) :=
    (List.map_flatMap _ _ _).symm
  rw [h3]
  apply List.Perm.map
  have h4 : ((wroots t).flatMap fun r => childFiles r t.files) =
      (wroots t).flatMap fun r => t.files.filter fun f => decide (f.path.dropLast = r) := by
    apply flatMap_congr_mem
    intro r _
    rw [childFiles]
    apply List.filter_congr
    intro f hf
    simp [(hwf f hf).1]
  rw [h4]
  apply flatMap_filter_key_perm (fun f : PFile => f.path.dropLast)
  · rw [wroots]
    exact List.nodup_cons.mpr ⟨fun hc => hdne [] hc rfl, hndd⟩
  · intro f hf
    exact (hwf f hf).2

theorem mem_scan_blobs (md5 : Content → Content) (t : PTree) (n : List Char) (c : Content)
    (h : (n, c) ∈ (scan_project_structure md5 t).2) :
    ∃ g ∈ t.files, g.status = FStatus.ok ∧ n = safeName (joinP g.path) ∧ c = g.content := by
  rw [scan_blobs_eq, List.mem_reverse] at h
  rcases List.mem_flatMap.mp h with ⟨r, hr, hmem⟩
  rw [rootBlobs] at hmem
  by_cases hskip : hasSub rplE (joinP r) = true
  · rw [if_pos hskip] at hmem; simp at hmem
  · rw [if_neg hskip] at hmem
    rcases List.mem_flatMap.mp hmem with ⟨g, hg, hbe⟩
    have hgmem : g ∈ t.files := (List.mem_filter.mp (by simpa only [childFiles] using hg)).1
    cases hst : g.status with
    | vanished => simp [blobEntry, hst] at hbe
    | copyFail => simp [blobEntry, hst] at hbe
    | ok =>
      simp only [blobEntry, hst, List.mem_singleton, Prod.mk.injEq] at hbe
      exact ⟨g, hgmem, hst, hbe.1, hbe.2⟩

theorem scan_blobs_mem_intro (md5 : Content → Content) (t : PTree) (f : PFile)
    (hf : f ∈ t.files) (hok : f.status = FStatus.ok) (hne : f.path ≠ [])
    (hroot : f.path.dropLast ∈ wroots t)
    (hclean : hasSub rplE (joinP f.path.dropLast) = false) :
    (safeName (joinP f.path), f.content) ∈ (scan_project_structure md5 t).2 := by
  rw [scan_blobs_eq, List.mem_reverse]
  apply List.mem_flatMap.mpr
  refine ⟨f.path.dropLast, hroot, ?_⟩
  rw [rootBlobs, if_neg (by simp [hclean])]
  apply List.mem_flatMap.mpr
  refine ⟨f, ?_, ?_⟩
  · simp only [childFiles]
    exact List.mem_filter.mpr ⟨hf, by simp [hne]⟩
  · simp [blobEntry, hok]

theorem lookupBlob_eq_of_mem : ∀ (bs : Blobs) (n : List Char) (c0 : Content),
    (∃ c, (n, c) ∈ bs) → (∀ c, (n, c) ∈ bs → c = c0) → lookupBlob bs n = some c0
  | [], n, c0, hex, _ => by
    rcases hex with ⟨c, hc⟩
    simp at hc
  | (m, c) :: bs, n, c0, hex, huniq => by
    show (if m = n then some c else lookupBlob bs n) = some c0
    by_cases hmn : m = n
    · rw [if_pos hmn]
      subst hmn
      rw [huniq c (by simp)]
    · rw [if_neg hmn]
      apply lookupBlob_eq_of_mem bs n c0
      · rcases hex with ⟨c2, hc2⟩
        rcases List.mem_cons.mp hc2 with hh | hh
        · exact absurd (congrArg Prod.fst hh).symm hmn
        · exact ⟨c2, hh⟩
      · intro c2 h2
        exact huniq c2 (by simp [h2])

/-- With duplicate-free file paths and sanitized names that do not collide,
looking up the blob recorded for an `ok` file returns exactly the bytes the
file had at capture time. -/
theorem lookupBlob_scan (md5 : Content → Content) (t : PTree)
    (hinj : ∀ f ∈ t.files, ∀ g ∈ t.files, f.status = FStatus.ok → g.status = FStatus.ok →
      safeName (joinP f.path) = safeName (joinP g.path) → f.path = g.path)
    (hndf : (t.files.map PFile.path).Nodup)
    (f : PFile) (hf : f ∈ t.files) (hok : f.status = FStatus.ok) (hne : f.path ≠ [])
    (hroot : f.path.dropLast ∈ wroots t)
    (hclean : hasSub rplE (joinP f.path.dropLast) = false) :
    lookupBlob (scan_project_structure md5 t).2 (safeName (joinP f.path)) =
      some f.content := by
  apply lookupBlob_eq_of_mem
  · exact ⟨f.content, scan_blobs_mem_intro md5 t f hf hok hne hroot hclean⟩
  · intro c hc
    rcases mem_scan_blobs md5 t _ c hc with ⟨g, hg, hgok, hn, hcg⟩
    have hpath : g.path = f.path := hinj g hg f hf hgok hok hn.symm
    have hgf : g = f := List.inj_on_of_nodup_map hndf hg hf hpath
    rw [hcg, hgf]

end RPLSnapshot

theorem length_filter_partition {α : Type} (p : α → Bool) : ∀ l : List α,
    (l.filter p).length + (l.filter fun x => !(p x)).length = l.length
  | [] => rfl
  | x :: l => by
    have ih := length_filter_partition p l
    rw [List.filter_cons, List.filter_cons]
    cases hp : p x <;> simp [hp] <;> omega

/-- C4 (amended): a per-file capture failure that leaves metadata readable
(`copyFail`) is contained: with exactly one such file among N, the snapshot
holds all N FileRecords, N-1 with a backup reference and the failed one
with a null reference, and the overall operation still reports success.  A
file that disappears between the directory listing and the per-file stat
(`vanished`) is instead dropped from the snapshot entirely (the record is
skipped, giving N-1 records), though the scan still succeeds. -/
theorem C4_partial_failure_amended (md5 : Content → Content) (t : PTree)
    (hcd : ∀ d ∈ t.dirs, hasSub rplE (joinP d) = false)
    (hdne : ∀ d ∈ t.dirs, d ≠ [])
    (hndd : t.dirs.Nodup)
    (hwf : ∀ f ∈ t.files, f.path ≠ [] ∧ f.path.dropLast ∈ RPLSnapshot.wroots t)
    (hoc : ∀ f ∈ t.files, f.status = FStatus.ok ∨ f.status = FStatus.copyFail)
    (h1 : (t.files.filter fun f => decide (f.status = FStatus.copyFail)).length = 1) :
    (RPLSnapshot.create_snapshot md5 t).1 = true ∧
    (RPLSnapshot.scan_project_structure md5 t).1.files.length = t.files.length ∧
    ((RPLSnapshot.scan_project_structure md5 t).1.files.filter
      fun e => e.2.backup.isSome).length = t.files.length - 1 ∧
    ((RPLSnapshot.scan_project_structure md5 t).1.files.filter
      fun e => decide (e.2.backup = none)).length = 1 := by
  have hnv : ∀ f ∈ t.files, f.status ≠ FStatus.vanished := by
    intro f hf
    rcases hoc f hf with h | h <;> simp [h]
  have hperm := RPLSnapshot.scan_files_perm md5 t hcd hdne hndd hwf hnv
  have hokcnt : (t.files.filter fun f => decide (f.status = FStatus.ok)).length =
      t.files.length - 1 := by
    have hpart := length_filter_partition (fun f => decide (f.status = FStatus.ok)) t.files
    have hneg : (t.files.filter fun f => !(decide (f.status = FStatus.ok))) =
        t.files.filter fun f => decide (f.status = FStatus.copyFail) := by
      apply List.filter_congr
      intro f hf
      rcases hoc f hf with h | h <;> simp [h]
    rw [hneg, h1] at hpart
    omega
  refine ⟨rfl, ?_, ?_, ?_⟩
  · rw [hperm.length_eq, List.length_map]
  · have hp := hperm.filter fun e : RelPath × FileRec => e.2.backup.isSome
    rw [hp.length_eq, List.filter_map _ _, List.length_map]
    have hcongr : (t.files.filter
        ((fun e : RelPath × FileRec => e.2.backup.isSome) ∘ RPLSnapshot.recOf md5)) =
        t.files.filter fun f => decide (f.status = FStatus.ok) := by
      apply List.filter_congr
      intro f hf
      rcases hoc f hf with h | h <;> simp [Function.comp, RPLSnapshot.recOf, h]
    rw [hcongr, hokcnt]
  · have hp := hperm.filter fun e : RelPath × FileRec => decide (e.2.backup = none)
    rw [hp.length_eq, List.filter_map _ _, List.length_map]
    have hcongr : (t.files.filter
        ((fun e : RelPath × FileRec => decide (e.2.backup = none)) ∘ RPLSnapshot.recOf md5)) =
        t.files.filter fun f => decide (f.status = FStatus.copyFail) := by
      apply List.filter_congr
      intro f hf
      rcases hoc f hf with h | h <;> simp [Function.comp, RPLSnapshot.recOf, h]
    rw [hcongr, h1]

/-- C4 counterexample: a project with a single file that disappears between
listing and stat yields a snapshot with zero FileRecords instead of the one
null-reference record the claim demands, even though the operation itself
reports success. -/
theorem C4_partial_failure_counterexample :
    (RPLSnapshot.create_snapshot (fun c => c)
        ⟨[], [⟨["g".data], [1, 2], 0, FStatus.vanished⟩]⟩).1 = true ∧
    (RPLSnapshot.scan_project_structure (fun c => c)
        ⟨[], [⟨["g".data], [1, 2], 0, FStatus.vanished⟩]⟩).1.files = [] := by decide

/-- Witness for C4 on a two-file project whose second file fails content
capture but still stats. -/
theorem C4_partial_failure_witness :
    (RPLSnapshot.create_snapshot (fun c => c)
        ⟨[], [⟨["a".data], [1], 0, FStatus.ok⟩,
              ⟨["b".data], [2, 3], 0, FStatus.copyFail⟩]⟩).1 = true ∧
    (RPLSnapshot.scan_project_structure (fun c => c)
        ⟨[], [⟨["a".data], [1], 0, FStatus.ok⟩,
              ⟨["b".data], [2, 3], 0, FStatus.copyFail⟩]⟩).1.files.length = 2 ∧
    ((RPLSnapshot.scan_project_structure (fun c => c)
        ⟨[], [⟨["a".data], [1], 0, FStatus.ok⟩,
              ⟨["b".data], [2, 3], 0, FStatus.copyFail⟩]⟩).1.files.filter
      fun e => e.2.backup.isSome).length = 1 ∧
    ((RPLSnapshot.scan_project_structure (fun c => c)
        ⟨[], [⟨["a".data], [1], 0, FStatus.ok⟩,
              ⟨["b".data], [2, 3], 0, FStatus.copyFail⟩]⟩).1.files.filter
      fun e => decide (e.2.backup = none)).length = 1 := by
  have h := C4_partial_failure_amended (fun c => c)
    ⟨[], [⟨["a".data], [1], 0, FStatus.ok⟩, ⟨["b".data], [2, 3], 0, FStatus.copyFail⟩]⟩
    (by simp) (by simp) (by simp) (by decide) (by decide) (by decide)
  refine ⟨h.1, ?_, ?_, h.2.2.2⟩
  · rw [h.2.1]
    rfl
  · rw [h.2.2.1]
    rfl

/-- C6 (amended): for every FileRecord with a non-null backup reference,
retrieving the referenced blob reproduces exactly the bytes the file had at
capture time and the recorded fingerprint is the digest of those bytes —
provided no two captured files sanitize to the same blob name (and paths
are unique).  Blob names are derived from relative paths by replacing `/`,
`\` and `:` with `_`, so distinct paths such as `a/b` and `a_b` do collide,
and then the later capture overwrites the earlier blob. -/
theorem C6_blob_integrity_amended (md5 : Content → Content) (t : PTree)
    (hndf : (t.files.map PFile.path).Nodup)
    (hinj : ∀ f ∈ t.files, ∀ g ∈ t.files, f.status = FStatus.ok → g.status = FStatus.ok →
      safeName (joinP f.path) = safeName (joinP g.path) → f.path = g.path) :
    ∀ p fr, (p, fr) ∈ (RPLSnapshot.scan_project_structure md5 t).1.files →
      ∀ nm, fr.backup = some nm →
      ∃ f ∈ t.files, f.path = p ∧
        lookupBlob (RPLSnapshot.scan_project_structure md5 t).2 nm =
          some f.content ∧ fr.hash = md5 f.content := by
  intro p fr hmem nm hbk
  rcases RPLSnapshot.mem_scan_files md5 t p fr hmem with ⟨f, hf, hfp, hne, hroot, hclean, hfe⟩
  cases hst : f.status with
  | vanished => simp [RPLSnapshot.fileEntry, hst] at hfe
  | copyFail =>
    simp only [RPLSnapshot.fileEntry, hst, List.mem_singleton, Prod.mk.injEq] at hfe
    rw [hfe.2] at hbk
    exact absurd hbk (by simp)
  | ok =>
    simp only [RPLSnapshot.fileEntry, hst, List.mem_singleton, Prod.mk.injEq] at hfe
    refine ⟨f, hf, hfp, ?_, ?_⟩
    · have hnm : nm = safeName (joinP f.path) := by
        rw [hfe.2] at hbk
        have h9 := Option.some.inj hbk
        exact h9.symm
      subst hnm
      apply RPLSnapshot.lookupBlob_scan md5 t hinj hndf f hf hst
      · rw [hfp]; exact hne
      · rw [hfp]; exact hroot
      · rw [hfp]; exact hclean
    · rw [hfe.2]

/-- C6 counterexample: the distinct paths `a/b` (content `[1]`) and `a_b`
(content `[2]`) sanitize to the same blob name `a_b.bak`; the record for
`a_b` keeps a non-null reference to that blob, but retrieving it returns
`[1]`, the bytes of the other file, not the `[2]` captured for `a_b`. -/
theorem C6_blob_integrity_counterexample :
    ((["a_b".data] : RelPath),
        (⟨1, 0, [2], some ("a_b.bak".data)⟩ : FileRec)) ∈
      (RPLSnapshot.scan_project_structure (fun c => c)
        ⟨[["a".data]], [⟨["a_b".data], [2], 0, FStatus.ok⟩,
          ⟨["a".data, "b".data], [1], 0, FStatus.ok⟩]⟩).1.files ∧
    lookupBlob
      ((RPLSnapshot.scan_project_structure (fun c => c)
        ⟨[["a".data]], [⟨["a_b".data], [2], 0, FStatus.ok⟩,
          ⟨["a".data, "b".data], [1], 0, FStatus.ok⟩]⟩).2)
      ("a_b.bak".data) = some [1] ∧
    ([1] : Content) ≠ [2] := by decide

/-- Witness for C6 on a collision-free single-file project. -/
theorem C6_blob_integrity_witness :
    lookupBlob
      (RPLSnapshot.scan_project_structure (fun c => c)
        ⟨[], [⟨["a".data], [5], 3, FStatus.ok⟩]⟩).2 ("a.bak".data) = some [5] := by
  have h := C6_blob_integrity_amended (fun c => c)
    ⟨[], [⟨["a".data], [5], 3, FStatus.ok⟩]⟩ (by decide) (by decide)
    ["a".data] ⟨1, 3, [5], some ("a.bak".data)⟩ (by decide) ("a.bak".data) rfl
  rcases h with ⟨f, hf, hfp, hlook, hhash⟩
  have hfc : f = ⟨["a".data], [5], 3, FStatus.ok⟩ := by simpa using hf
  rw [hfc] at hlook
  exact hlook

namespace RPLSnapshot

theorem mem_addDirs (ds : List RelPath) (p q : RelPath) :
    q ∈ addDirs ds p ↔ q ∈ ds ∨ q ∈ ancestors p := by
  simp only [addDirs, List.mem_append, List.mem_filter, decide_eq_true_eq]
  constructor
  · rintro (h | ⟨h, _⟩)
    · exact Or.inl h
    · exact Or.inr h
  · rintro (h | h)
    · exact Or.inl h
    · by_cases hq : q ∈ ds
      · exact Or.inl hq
      · exact Or.inr ⟨h, hq⟩

theorem mem_foldl_addDirs : ∀ (L : List RelPath) (ds : List RelPath) (q : RelPath),
    q ∈ L.foldl addDirs ds ↔ q ∈ ds ∨ ∃ d ∈ L, q ∈ ancestors d
  | [], ds, q => by simp
  | d :: L, ds, q => by
    rw [List.foldl_cons, mem_foldl_addDirs L (addDirs ds d) q]
    rw [mem_addDirs]
    constructor
    · rintro ((h | h) | ⟨d2, hd2, h⟩)
      · exact Or.inl h
      · exact Or.inr ⟨d, by simp, h⟩
      · exact Or.inr ⟨d2, by simp [hd2], h⟩
    · rintro (h | ⟨d2, hd2, h⟩)
      · exact Or.inl (Or.inl h)
      · rcases List.mem_cons.mp hd2 with hh | hh
        · subst hh
          exact Or.inl (Or.inr h)
        · exact Or.inr ⟨d2, hh, h⟩

theorem mem_ancestors (p q : RelPath) :
    q ∈ ancestors p ↔ ∃ k, k < p.length ∧ q = p.take (k + 1) := by
  simp only [ancestors, List.mem_map, List.mem_range]
  constructor
  · rintro ⟨k, hk, hq⟩
    exact ⟨k, hk, hq.symm⟩
  · rintro ⟨k, hk, hq⟩
    exact ⟨k, hk, hq.symm⟩

theorem self_mem_ancestors (p : RelPath) (h : p ≠ []) : p ∈ ancestors p := by
  rw [mem_ancestors]
  have hl : 0 < p.length := List.length_pos.mpr h
  refine ⟨p.length - 1, by omega, ?_⟩
  have he : p.length - 1 + 1 = p.length := by omega
  rw [he, List.take_length]

theorem ancestors_nil (q : RelPath) : q ∈ ancestors ([] : RelPath) → False := by
  rw [mem_ancestors]
  rintro ⟨k, hk, _⟩
  simp at hk

theorem ancestors_subset_dirs_aux (t : PTree)
    (hwfd : ∀ d ∈ t.dirs, d ≠ [] ∧ d.dropLast ∈ wroots t) :
    ∀ (n : Nat) (d : RelPath), d.length ≤ n → d ∈ t.dirs →
      ∀ q ∈ ancestors d, q ∈ t.dirs
  | 0, d, hl, hd, q, hq => by
    have := (hwfd d hd).1
    have hz : d = [] := List.length_eq_zero.mp (Nat.le_zero.mp hl)
    exact absurd hz this
  | n + 1, d, hl, hd, q, hq => by
    rcases (mem_ancestors d q).mp hq with ⟨k, hk, hqe⟩
    rcases Nat.lt_or_ge (k + 1) d.length with hlt | hge
    · have hdl := (hwfd d hd).2
      rcases List.mem_cons.mp hdl with hnil | hmem
      · have hlen : d.dropLast.length = d.length - 1 := List.length_dropLast d
        rw [hnil] at hlen
        simp at hlen
        omega
      · apply ancestors_subset_dirs_aux t hwfd n d.dropLast ?_ hmem q ?_
        · rw [List.length_dropLast]
          omega
        · rw [mem_ancestors]
          refine ⟨k, ?_, ?_⟩
          · rw [List.length_dropLast]
            omega
          · have h1 : d.dropLast = d.take (d.length - 1) := List.dropLast_eq_take d
            rw [h1, List.take_take]
            have h2 : min (k + 1) (d.length - 1) = k + 1 := by omega
            rw [h2]
            exact hqe
    · have hke : k + 1 = d.length := by omega
      rw [hqe, hke, List.take_length]
      exact hd

end RPLSnapshot

namespace RPLSnapshot

/-- Every ancestor of a recorded directory is itself recorded, in a tree
whose directories all have their parent present. -/
theorem ancestors_subset_dirs (t : PTree)
    (hwfd : ∀ d ∈ t.dirs, d ≠ [] ∧ d.dropLast ∈ wroots t) :
    ∀ d ∈ t.dirs, ∀ q ∈ ancestors d, q ∈ t.dirs := fun d hd =>
  ancestors_subset_dirs_aux t hwfd d.length d (Nat.le_refl _) hd

theorem hasSub_joinP_last : ∀ d : RelPath, d ≠ [] → hasSub rplE (lastSeg d) = true →
    hasSub rplE (joinP d) = true
  | [], h, _ => absurd rfl h
  | [x], _, hx => hx
  | x :: y :: rest, _, hx => by
    have htail : hasSub rplE (joinP (y :: rest)) = true := by
      apply hasSub_joinP_last (y :: rest) (by simp)
      simpa [lastSeg] using hx
    show hasSub rplE (x ++ '/' :: joinP (y :: rest)) = true
    apply hasSub_append_right
    rw [hasSub_cons]
    simp [htail]

theorem scan_dirs_mem_intro (md5 : Content → Content) (t : PTree) (d : RelPath)
    (hd : d ∈ t.dirs) (hne : d ≠ []) (hroot : d.dropLast ∈ wroots t)
    (hcp : hasSub rplE (joinP d.dropLast) = false)
    (hlast : lastSeg d ≠ rplSeg) :
    d ∈ (scan_project_structure md5 t).1.dirs := by
  rw [scan_dirs_eq]
  apply List.mem_flatMap.mpr
  refine ⟨d.dropLast, hroot, ?_⟩
  rw [rootDirs, if_neg (by simp [hcp])]
  apply List.mem_filter.mpr
  constructor
  · simp only [childDirs]
    exact List.mem_filter.mpr ⟨hd, by simp [hne]⟩
  · simpa using hlast

theorem restoreFile_good (blobs : Blobs) (k : Nat) (st : FSState)
    (e : RelPath × FileRec) (nm : List Char) (c : Content)
    (hbk : e.2.backup = some nm) (hlk : lookupBlob blobs nm = some c) :
    restoreFile blobs (k, st) e =
      (k + 1, ⟨addDirs st.dirs e.1.dropLast,
        (e.1, c, e.2.mtime) :: st.files.filter fun x => decide (x.1 ≠ e.1)⟩) := by
  obtain ⟨p, fr⟩ := e
  obtain ⟨sz, mt, hsh, bk⟩ := fr
  simp only at hbk
  subst hbk
  simp only [restoreFile]
  rw [hlk]
  rfl

theorem restore_foldl_count (blobs : Blobs) :
    ∀ (R : List (RelPath × FileRec)) (k : Nat) (st : FSState),
      (∀ e ∈ R, ∃ nm c, e.2.backup = some nm ∧ lookupBlob blobs nm = some c) →
      (R.foldl (restoreFile blobs) (k, st)).1 = k + R.length
  | [], k, st, _ => by simp
  | e :: R, k, st, h => by
    rcases h e (by simp) with ⟨nm, c, hbk, hlk⟩
    rw [List.foldl_cons, restoreFile_good blobs k st e nm c hbk hlk,
      restore_foldl_count blobs R (k + 1) ⟨addDirs st.dirs e.1.dropLast,
        (e.1, c, e.2.mtime) :: st.files.filter fun x => decide (x.1 ≠ e.1)⟩
        fun e2 he2 => h e2 (by simp [he2])]
    simp only [List.length_cons]
    omega

theorem restore_foldl_dirs (blobs : Blobs) :
    ∀ (R : List (RelPath × FileRec)) (k : Nat) (st : FSState),
      (∀ e ∈ R, ∃ nm c, e.2.backup = some nm ∧ lookupBlob blobs nm = some c) →
      ∀ q, q ∈ (R.foldl (restoreFile blobs) (k, st)).2.dirs ↔
        q ∈ st.dirs ∨ ∃ e ∈ R, q ∈ ancestors e.1.dropLast
  | [], k, st, _, q => by
    show q ∈ st.dirs ↔ q ∈ st.dirs ∨
      ∃ e ∈ ([] : List (RelPath × FileRec)), q ∈ ancestors e.1.dropLast
    constructor
    · exact fun h => Or.inl h
    · rintro (h | ⟨e, he, _⟩)
      · exact h
      · exact absurd he (List.not_mem_nil e)
  | e :: R, k, st, h, q => by
    rcases h e (by simp) with ⟨nm, c, hbk, hlk⟩
    rw [List.foldl_cons, restoreFile_good blobs k st e nm c hbk hlk,
      restore_foldl_dirs blobs R (k + 1) ⟨addDirs st.dirs e.1.dropLast,
        (e.1, c, e.2.mtime) :: st.files.filter fun x => decide (x.1 ≠ e.1)⟩
        (fun e2 he2 => h e2 (by simp [he2])) q]
    show q ∈ addDirs st.dirs e.1.dropLast ∨ _ ↔ _
    rw [mem_addDirs]
    constructor
    · rintro ((hq | hq) | ⟨e2, he2, hq⟩)
      · exact Or.inl hq
      · exact Or.inr ⟨e, by simp, hq⟩
      · exact Or.inr ⟨e2, by simp [he2], hq⟩
    · rintro (hq | ⟨e2, he2, hq⟩)
      · exact Or.inl (Or.inl hq)
      · rcases List.mem_cons.mp he2 with hh | hh
        · subst hh
          exact Or.inl (Or.inr hq)
        · exact Or.inr ⟨e2, hh, hq⟩

theorem restore_foldl_files (blobs : Blobs) :
    ∀ (R : List (RelPath × FileRec)) (k : Nat) (st : FSState),
      (∀ e ∈ R, ∃ nm c, e.2.backup = some nm ∧ lookupBlob blobs nm = some c) →
      (R.map Prod.fst).Nodup →
      ∀ x, x ∈ (R.foldl (restoreFile blobs) (k, st)).2.files ↔
        ((∃ e ∈ R, ∃ nm c, e.2.backup = some nm ∧ lookupBlob blobs nm = some c ∧
          x = (e.1, c, e.2.mtime)) ∨ (x ∈ st.files ∧ x.1 ∉ R.map Prod.fst))
  | [], k, st, _, _, x => by
    show x ∈ st.files ↔ (∃ e ∈ ([] : List (RelPath × FileRec)), ∃ nm c,
        e.2.backup = some nm ∧ lookupBlob blobs nm = some c ∧ x = (e.1, c, e.2.mtime)) ∨
      (x ∈ st.files ∧ x.1 ∉ ([] : List (RelPath × FileRec)).map Prod.fst)
    constructor
    · intro h
      exact Or.inr ⟨h, by simp⟩
    · rintro (⟨e, he, _⟩ | ⟨h, _⟩)
      · exact absurd he (List.not_mem_nil e)
      · exact h
  | e :: R, k, st, h, hnd, x => by
    rcases h e (by simp) with ⟨nm, c, hbk, hlk⟩
    have hnd2 : (e.1 :: R.map Prod.fst).Nodup := by
      rw [← List.map_cons]
      exact hnd
    have hndR : (R.map Prod.fst).Nodup := (List.nodup_cons.mp hnd2).2
    have hkey : e.1 ∉ R.map Prod.fst := (List.nodup_cons.mp hnd2).1
    rw [List.foldl_cons, restoreFile_good blobs k st e nm c hbk hlk,
      restore_foldl_files blobs R (k + 1) ⟨addDirs st.dirs e.1.dropLast,
        (e.1, c, e.2.mtime) :: st.files.filter fun x => decide (x.1 ≠ e.1)⟩
        (fun e2 he2 => h e2 (by simp [he2])) hndR x]
    constructor
    · rintro (⟨e2, he2, nm2, c2, hbk2, hlk2, hx⟩ | ⟨hx, hnotin⟩)
      · exact Or.inl ⟨e2, by simp [he2], nm2, c2, hbk2, hlk2, hx⟩
      · rcases List.mem_cons.mp hx with hh | hh
        · subst hh
          exact Or.inl ⟨e, by simp, nm, c, hbk, hlk, rfl⟩
        · have hmem := List.mem_filter.mp hh
          refine Or.inr ⟨hmem.1, ?_⟩
          have hne : x.1 ≠ e.1 := of_decide_eq_true hmem.2
          simp only [List.map_cons, List.mem_cons]
          rintro (hc | hc)
          · exact hne hc
          · exact hnotin hc
    · rintro (⟨e2, he2, nm2, c2, hbk2, hlk2, hx⟩ | ⟨hx, hnotin⟩)
      · rcases List.mem_cons.mp he2 with hh | hh
        · subst hh
          rw [hbk] at hbk2
          have hnmeq : nm = nm2 := Option.some.inj hbk2
          rw [← hnmeq, hlk] at hlk2
          have hceq : c = c2 := Option.some.inj hlk2
          refine Or.inr ⟨?_, ?_⟩
          · rw [hx, ← hceq]
            simp
          · rw [hx]
            exact hkey
        · exact Or.inl ⟨e2, hh, nm2, c2, hbk2, hlk2, hx⟩
      · refine Or.inr ⟨?_, ?_⟩
        · apply List.mem_cons.mpr
          right
          apply List.mem_filter.mpr
          refine ⟨hx, ?_⟩
          apply decide_eq_true
          intro hc
          exact hnotin (by rw [List.map_cons]; exact List.mem_cons.mpr (Or.inl hc))
        · intro hc
          exact hnotin (by rw [List.map_cons]; exact List.mem_cons.mpr (Or.inr hc))

end RPLSnapshot

namespace RPLSnapshot

theorem restore_snapshot_some (s : Snap) (b : Blobs) (ans : List Char) (cur : FSState)
    (hans : confirmOk ans = true) :
    restore_snapshot (some s) b ans cur =
      (decide ((s.files.foldl (restoreFile b)
          (0, ⟨s.dirs.foldl addDirs (clean_project cur).dirs, (clean_project cur).files⟩)).1 =
            s.files.length),
        (s.files.foldl (restoreFile b)
          (0, ⟨s.dirs.foldl addDirs (clean_project cur).dirs,
            (clean_project cur).files⟩)).2) := by
  simp only [restore_snapshot]
  rw [if_pos hans]

theorem recOf_ok (md5 : Content → Content) (f : PFile) (h : f.status = FStatus.ok) :
    recOf md5 f =
      (f.path, ⟨f.content.length, f.mtime, md5 f.content, some (safeName (joinP f.path))⟩) := by
  simp [recOf, h]

theorem recOf_fst (md5 : Content → Content) (f : PFile) : (recOf md5 f).1 = f.path := by
  cases hst : f.status <;> simp [recOf, hst]

end RPLSnapshot

/-- C1 (amended): scanning and then restoring into an empty target
reproduces the tree's directory set, file set, byte contents, modification
times and fingerprints exactly, for every tree in which all files are
readable, no relative path contains `.rpl` as a substring, distinct file
paths have distinct sanitized blob names, paths are duplicate-free, every
parent directory is present in the tree, and the restore confirmation is
given.  Without the sanitized-name condition the round trip fails: `a/b`
and `a_b` share one blob, and the later capture overwrites the earlier. -/
theorem C1_roundtrip_amended (md5 : Content → Content) (t : PTree) (ans : List Char)
    (hcd : ∀ d ∈ t.dirs, hasSub rplE (joinP d) = false)
    (hwfd : ∀ d ∈ t.dirs, d ≠ [] ∧ d.dropLast ∈ RPLSnapshot.wroots t)
    (hndd : t.dirs.Nodup)
    (hwf : ∀ f ∈ t.files, f.path ≠ [] ∧ f.path.dropLast ∈ RPLSnapshot.wroots t)
    (hndf : (t.files.map PFile.path).Nodup)
    (hok : ∀ f ∈ t.files, f.status = FStatus.ok)
    (hinj : ∀ f ∈ t.files, ∀ g ∈ t.files, f.status = FStatus.ok → g.status = FStatus.ok →
      safeName (joinP f.path) = safeName (joinP g.path) → f.path = g.path)
    (hans : RPLSnapshot.confirmOk ans = true) :
    (RPLSnapshot.restore_snapshot (some (RPLSnapshot.scan_project_structure md5 t).1)
        (RPLSnapshot.scan_project_structure md5 t).2 ans ⟨[], []⟩).1 = true ∧
    (∀ q, q ∈ (RPLSnapshot.restore_snapshot
        (some (RPLSnapshot.scan_project_structure md5 t).1)
        (RPLSnapshot.scan_project_structure md5 t).2 ans ⟨[], []⟩).2.dirs ↔ q ∈ t.dirs) ∧
    (∀ p c m, (p, c, m) ∈ (RPLSnapshot.restore_snapshot
        (some (RPLSnapshot.scan_project_structure md5 t).1)
        (RPLSnapshot.scan_project_structure md5 t).2 ans ⟨[], []⟩).2.files ↔
      ∃ f ∈ t.files, f.path = p ∧ f.content = c ∧ f.mtime = m) ∧
    (∀ p c m, (p, c, m) ∈ (RPLSnapshot.restore_snapshot
        (some (RPLSnapshot.scan_project_structure md5 t).1)
        (RPLSnapshot.scan_project_structure md5 t).2 ans ⟨[], []⟩).2.files →
      ∃ fr, (p, fr) ∈ (RPLSnapshot.scan_project_structure md5 t).1.files ∧
        fr.hash = md5 c ∧ fr.mtime = m) := by
  have hdne : ∀ d ∈ t.dirs, d ≠ [] := fun d hd => (hwfd d hd).1
  have hnv : ∀ f ∈ t.files, f.status ≠ FStatus.vanished := by
    intro f hf
    rw [hok f hf]
    simp
  have hperm := RPLSnapshot.scan_files_perm md5 t hcd hdne hndd hwf hnv
  have hcleanroot : ∀ r ∈ RPLSnapshot.wroots t, hasSub rplE (joinP r) = false := by
    intro r hr
    rcases List.mem_cons.mp hr with h | h
    · subst h; decide
    · exact hcd r h
  have hgood : ∀ e ∈ (RPLSnapshot.scan_project_structure md5 t).1.files,
      ∃ nm c, e.2.backup = some nm ∧
        lookupBlob (RPLSnapshot.scan_project_structure md5 t).2 nm = some c := by
    intro e he
    have hmem : e ∈ t.files.map (RPLSnapshot.recOf md5) := hperm.mem_iff.mp he
    rcases List.mem_map.mp hmem with ⟨f, hf, hef⟩
    refine ⟨safeName (joinP f.path), f.content, ?_, ?_⟩
    · rw [← hef, RPLSnapshot.recOf_ok md5 f (hok f hf)]
    · exact RPLSnapshot.lookupBlob_scan md5 t hinj hndf f hf (hok f hf) (hwf f hf).1
        (hwf f hf).2 (hcleanroot _ (hwf f hf).2)
  have hkeys : (((RPLSnapshot.scan_project_structure md5 t).1.files).map Prod.fst).Nodup := by
    have hp2 := hperm.map Prod.fst
    have he : (t.files.map (RPLSnapshot.recOf md5)).map Prod.fst =
        t.files.map PFile.path := by
      rw [List.map_map]
      apply List.map_congr_left
      intro f _
      exact RPLSnapshot.recOf_fst md5 f
    rw [he] at hp2
    exact hp2.nodup_iff.mpr hndf
  rw [RPLSnapshot.restore_snapshot_some _ _ ans ⟨[], []⟩ hans]
  have hclean0 : RPLSnapshot.clean_project ⟨[], []⟩ = (⟨[], []⟩ : RPLSnapshot.FSState) := rfl
  rw [hclean0]
  have hcount := RPLSnapshot.restore_foldl_count
    (RPLSnapshot.scan_project_structure md5 t).2
    (RPLSnapshot.scan_project_structure md5 t).1.files 0
    ⟨(RPLSnapshot.scan_project_structure md5 t).1.dirs.foldl RPLSnapshot.addDirs [], []⟩
    hgood
  have hfiles := RPLSnapshot.restore_foldl_files
    (RPLSnapshot.scan_project_structure md5 t).2
    (RPLSnapshot.scan_project_structure md5 t).1.files 0
    ⟨(RPLSnapshot.scan_project_structure md5 t).1.dirs.foldl RPLSnapshot.addDirs [], []⟩
    hgood hkeys
  have hdirs := RPLSnapshot.restore_foldl_dirs
    (RPLSnapshot.scan_project_structure md5 t).2
    (RPLSnapshot.scan_project_structure md5 t).1.files 0
    ⟨(RPLSnapshot.scan_project_structure md5 t).1.dirs.foldl RPLSnapshot.addDirs [], []⟩
    hgood
  have hchar : ∀ x, x ∈ ((RPLSnapshot.scan_project_structure md5 t).1.files.foldl
      (RPLSnapshot.restoreFile (RPLSnapshot.scan_project_structure md5 t).2)
      (0, ⟨(RPLSnapshot.scan_project_structure md5 t).1.dirs.foldl RPLSnapshot.addDirs [],
        []⟩)).2.files ↔
      ∃ f ∈ t.files, x = (f.path, f.content, f.mtime) := by
    intro x
    rw [hfiles x]
    constructor
    · rintro (⟨e, he, nm, c, hbk, hlk, hx⟩ | ⟨hx, _⟩)
      · have hmem : e ∈ t.files.map (RPLSnapshot.recOf md5) := hperm.mem_iff.mp he
        rcases List.mem_map.mp hmem with ⟨f, hf, hef⟩
        refine ⟨f, hf, ?_⟩
        have hrec := RPLSnapshot.recOf_ok md5 f (hok f hf)
        rw [hrec] at hef
        have hbk2 : e.2.backup = some (safeName (joinP f.path)) := by rw [← hef]
        rw [hbk] at hbk2
        have hnm : nm = safeName (joinP f.path) := Option.some.inj hbk2
        have hlk2 := RPLSnapshot.lookupBlob_scan md5 t hinj hndf f hf (hok f hf)
          (hwf f hf).1 (hwf f hf).2 (hcleanroot _ (hwf f hf).2)
        rw [hnm, hlk2] at hlk
        have hc : c = f.content := (Option.some.inj hlk).symm
        rw [hx, hc, ← hef]
      · exact absurd hx (List.not_mem_nil x)
    · rintro ⟨f, hf, hx⟩
      left
      refine ⟨RPLSnapshot.recOf md5 f, hperm.mem_iff.mpr (List.mem_map_of_mem _ hf),
        safeName (joinP f.path), f.content, ?_, ?_, ?_⟩
      · rw [RPLSnapshot.recOf_ok md5 f (hok f hf)]
      · exact RPLSnapshot.lookupBlob_scan md5 t hinj hndf f hf (hok f hf) (hwf f hf).1
          (hwf f hf).2 (hcleanroot _ (hwf f hf).2)
      · rw [RPLSnapshot.recOf_ok md5 f (hok f hf), hx]
  refine ⟨?_, ?_, ?_, ?_⟩
  · show decide _ = true
    rw [hcount]
    simp
  · intro q
    show q ∈ _ ↔ _
    rw [hdirs q]
    have hd1 : q ∈ ((RPLSnapshot.scan_project_structure md5 t).1.dirs.foldl
        RPLSnapshot.addDirs ([] : List RelPath) : List RelPath) ↔
        q ∈ ([] : List RelPath) ∨ ∃ d ∈ (RPLSnapshot.scan_project_structure md5 t).1.dirs,
          q ∈ RPLSnapshot.ancestors d :=
      RPLSnapshot.mem_foldl_addDirs _ [] q
    constructor
    · rintro (hq | ⟨e, he, hq⟩)
      · rcases (hd1.mp hq) with hq2 | ⟨d, hd, hq2⟩
        · exact absurd hq2 (List.not_mem_nil q)
        · have hdd := RPLSnapshot.mem_scan_dirs md5 t d hd
          exact RPLSnapshot.ancestors_subset_dirs t hwfd d hdd.1 q hq2
      · have hmem : e ∈ t.files.map (RPLSnapshot.recOf md5) := hperm.mem_iff.mp he
        rcases List.mem_map.mp hmem with ⟨f, hf, hef⟩
        have hfst : e.1 = f.path := by rw [← hef, RPLSnapshot.recOf_fst]
        rw [hfst] at hq
        rcases List.mem_cons.mp (hwf f hf).2 with hnil | hpar
        · rw [hnil] at hq
          exact absurd hq (fun hc => RPLSnapshot.ancestors_nil q hc)
        · exact RPLSnapshot.ancestors_subset_dirs t hwfd _ hpar q hq
    · intro hq
      left
      apply hd1.mpr
      right
      refine ⟨q, ?_, RPLSnapshot.self_mem_ancestors q (hdne q hq)⟩
      apply RPLSnapshot.scan_dirs_mem_intro md5 t q hq (hdne q hq) (hwfd q hq).2
        (hcleanroot _ (hwfd q hq).2)
      intro hlast
      have hsub : hasSub rplE (joinP q) = true := by
        apply RPLSnapshot.hasSub_joinP_last q (hdne q hq)
        rw [hlast]
        decide
      rw [hcd q hq] at hsub
      exact absurd hsub (by simp)
  · intro p c m
    show (p, c, m) ∈ _ ↔ _
    rw [hchar (p, c, m)]
    constructor
    · rintro ⟨f, hf, hx⟩
      have h1 : f.path = p := (congrArg Prod.fst hx).symm
      have h2 : f.content = c := (congrArg (fun y => y.2.1) hx).symm
      have h3 : f.mtime = m := (congrArg (fun y => y.2.2) hx).symm
      exact ⟨f, hf, h1, h2, h3⟩
    · rintro ⟨f, hf, h1, h2, h3⟩
      exact ⟨f, hf, by rw [h1, h2, h3]⟩
  · intro p c m hmem
    have hx := (hchar (p, c, m)).mp hmem
    rcases hx with ⟨f, hf, hx⟩
    have h1 : f.path = p := (congrArg Prod.fst hx).symm
    have h2 : f.content = c := (congrArg (fun y => y.2.1) hx).symm
    have h3 : f.mtime = m := (congrArg (fun y => y.2.2) hx).symm
    refine ⟨⟨f.content.length, f.mtime, md5 f.content, some (safeName (joinP p))⟩,
      ?_, ?_, ?_⟩
    · have hrec := RPLSnapshot.recOf_ok md5 f (hok f hf)
      have hmem2 : RPLSnapshot.recOf md5 f ∈
          (RPLSnapshot.scan_project_structure md5 t).1.files :=
        hperm.mem_iff.mpr (List.mem_map_of_mem _ hf)
      rw [hrec, h1] at hmem2
      exact hmem2
    · rw [h2]
    · exact h3

/-- C1 counterexample: the tree with files `a_b` (content `[2]`) and `a/b`
(content `[1]`) has both relative paths sanitize to the same backup blob
`a_b.bak`, so after scan plus restore into an empty target the file `a_b`
comes back with `a/b`'s bytes `[1]` instead of its own bytes `[2]`: the
round trip does not reproduce byte content exactly. -/
theorem C1_roundtrip_counterexample :
    ((["a_b".data] : RelPath), ([1] : Content), 0) ∈
      (RPLSnapshot.restore_snapshot
        (some (RPLSnapshot.scan_project_structure (fun c => c)
          ⟨[["a".data]], [⟨["a_b".data], [2], 0, FStatus.ok⟩,
            ⟨["a".data, "b".data], [1], 0, FStatus.ok⟩]⟩).1)
        (RPLSnapshot.scan_project_structure (fun c => c)
          ⟨[["a".data]], [⟨["a_b".data], [2], 0, FStatus.ok⟩,
            ⟨["a".data, "b".data], [1], 0, FStatus.ok⟩]⟩).2
        ("y".data) ⟨[], []⟩).2.files ∧
    ((["a_b".data] : RelPath), ([2] : Content), 0) ∉
      (RPLSnapshot.restore_snapshot
        (some (RPLSnapshot.scan_project_structure (fun c => c)
          ⟨[["a".data]], [⟨["a_b".data], [2], 0, FStatus.ok⟩,
            ⟨["a".data, "b".data], [1], 0, FStatus.ok⟩]⟩).1)
        (RPLSnapshot.scan_project_structure (fun c => c)
          ⟨[["a".data]], [⟨["a_b".data], [2], 0, FStatus.ok⟩,
            ⟨["a".data, "b".data], [1], 0, FStatus.ok⟩]⟩).2
        ("y".data) ⟨[], []⟩).2.files ∧
    (⟨["a_b".data], [2], 0, FStatus.ok⟩ : PFile) ∈
      ([⟨["a_b".data], [2], 0, FStatus.ok⟩,
        ⟨["a".data, "b".data], [1], 0, FStatus.ok⟩] : List PFile) := by
  decide

/-- Witness for C1 on a clean collision-free tree with one directory and
one file, restored with confirmation `y`. -/
theorem C1_roundtrip_witness :
    (RPLSnapshot.restore_snapshot
        (some (RPLSnapshot.scan_project_structure (fun c => c)
          ⟨[["s".data]], [⟨["s".data, "x".data], [9], 4, FStatus.ok⟩]⟩).1)
        (RPLSnapshot.scan_project_structure (fun c => c)
          ⟨[["s".data]], [⟨["s".data, "x".data], [9], 4, FStatus.ok⟩]⟩).2
        ("y".data) ⟨[], []⟩).1 = true ∧
    (["s".data] : RelPath) ∈
      (RPLSnapshot.restore_snapshot
        (some (RPLSnapshot.scan_project_structure (fun c => c)
          ⟨[["s".data]], [⟨["s".data, "x".data], [9], 4, FStatus.ok⟩]⟩).1)
        (RPLSnapshot.scan_project_structure (fun c => c)
          ⟨[["s".data]], [⟨["s".data, "x".data], [9], 4, FStatus.ok⟩]⟩).2
        ("y".data) ⟨[], []⟩).2.dirs ∧
    ((["s".data, "x".data] : RelPath), ([9] : Content), 4) ∈
      (RPLSnapshot.restore_snapshot
        (some (RPLSnapshot.scan_project_structure (fun c => c)
          ⟨[["s".data]], [⟨["s".data, "x".data], [9], 4, FStatus.ok⟩]⟩).1)
        (RPLSnapshot.scan_project_structure (fun c => c)
          ⟨[["s".data]], [⟨["s".data, "x".data], [9], 4, FStatus.ok⟩]⟩).2
        ("y".data) ⟨[], []⟩).2.files := by
  have h := C1_roundtrip_amended (fun c => c)
    ⟨[["s".data]], [⟨["s".data, "x".data], [9], 4, FStatus.ok⟩]⟩ ("y".data)
    (by decide) (by decide) (by decide) (by decide) (by decide) (by decide) (by decide)
    (by decide)
  refine ⟨h.1, (h.2.1 ["s".data]).mpr (by decide), ?_⟩
  exact (h.2.2.1 ["s".data, "x".data] [9] 4).mpr
    ⟨⟨["s".data, "x".data], [9], 4, FStatus.ok⟩, by decide, rfl, rfl, rfl⟩

theorem char_toNat_inj {a b : Char} (h : a.toNat = b.toNat) : a = b := by
  have h2 := congrArg Char.ofNat h
  rwa [Char.ofNat_toNat, Char.ofNat_toNat] at h2

theorem perm_insertLe {α : Type} (le : α → α → Bool) (x : α) :
    ∀ l : List α, List.Perm (RPLManager.insertLe le x l) (x :: l)
  | [] => List.Perm.refl _
  | y :: ys => by
    simp only [RPLManager.insertLe]
    by_cases h : le x y = true
    · rw [if_pos h]
    · rw [if_neg h]
      exact List.Perm.trans (List.Perm.cons y (perm_insertLe le x ys)) (List.Perm.swap x y ys)

theorem perm_sortLe {α : Type} (le : α → α → Bool) :
    ∀ l : List α, List.Perm (RPLManager.sortLe le l) l
  | [] => List.Perm.refl _
  | x :: xs => List.Perm.trans (perm_insertLe le x _) (List.Perm.cons x (perm_sortLe le xs))

theorem pairwise_insertLe {α : Type} (le : α → α → Bool)
    (htot : ∀ a b, le a b = true ∨ le b a = true)
    (htr : ∀ a b c, le a b = true → le b c = true → le a c = true) :
    ∀ (l : List α) (x : α), l.Pairwise (fun a b => le a b = true) →
      (RPLManager.insertLe le x l).Pairwise (fun a b => le a b = true)
  | [], x, _ => List.pairwise_cons.mpr ⟨fun b hb => absurd hb (List.not_mem_nil b),
      List.Pairwise.nil⟩
  | y :: ys, x, hp => by
    simp only [RPLManager.insertLe]
    rcases List.pairwise_cons.mp hp with ⟨hy, hys⟩
    by_cases h : le x y = true
    · rw [if_pos h]
      apply List.pairwise_cons.mpr
      refine ⟨?_, hp⟩
      intro b hb
      rcases List.mem_cons.mp hb with hh | hh
      · subst hh; exact h
      · exact htr x y b h (hy b hh)
    · rw [if_neg h]
      apply List.pairwise_cons.mpr
      constructor
      · intro b hb
        have hb2 : b ∈ x :: ys := (perm_insertLe le x ys).mem_iff.mp hb
        rcases List.mem_cons.mp hb2 with hh | hh
        · rw [hh]
          rcases htot x y with h1 | h1
          · exact absurd h1 h
          · exact h1
        · exact hy b hh
      · exact pairwise_insertLe le htot htr ys x hys

theorem pairwise_sortLe {α : Type} (le : α → α → Bool)
    (htot : ∀ a b, le a b = true ∨ le b a = true)
    (htr : ∀ a b c, le a b = true → le b c = true → le a c = true) :
    ∀ l : List α, (RPLManager.sortLe le l).Pairwise (fun a b => le a b = true)
  | [] => List.Pairwise.nil
  | x :: xs => pairwise_insertLe le htot htr _ x (pairwise_sortLe le htot htr xs)

theorem lexLe_refl : ∀ a, RPLManager.lexLe a a = true
  | [] => rfl
  | c :: cs => by
    show (if c.toNat = c.toNat then RPLManager.lexLe cs cs else _) = true
    rw [if_pos rfl]
    exact lexLe_refl cs

theorem lexLe_total : ∀ a b, RPLManager.lexLe a b = true ∨ RPLManager.lexLe b a = true
  | [], _ => Or.inl rfl
  | _ :: _, [] => Or.inr rfl
  | a :: as, b :: bs => by
    by_cases hab : a.toNat = b.toNat
    · show (if a.toNat = b.toNat then RPLManager.lexLe as bs else _) = true ∨
        (if b.toNat = a.toNat then RPLManager.lexLe bs as else _) = true
      rw [if_pos hab, if_pos hab.symm]
      exact lexLe_total as bs
    · have hba : ¬ b.toNat = a.toNat := fun h => hab h.symm
      show (if a.toNat = b.toNat then RPLManager.lexLe as bs
          else decide (a.toNat < b.toNat)) = true ∨
        (if b.toNat = a.toNat then RPLManager.lexLe bs as
          else decide (b.toNat < a.toNat)) = true
      rw [if_neg hab, if_neg hba]
      rcases Nat.lt_or_ge a.toNat b.toNat with h | h
      · exact Or.inl (decide_eq_true h)
      · refine Or.inr (decide_eq_true ?_)
        omega

theorem lexLe_antisymm : ∀ a b, RPLManager.lexLe a b = true →
    RPLManager.lexLe b a = true → a = b
  | [], [], _, _ => rfl
  | [], _ :: _, _, h2 => by simp [RPLManager.lexLe] at h2
  | _ :: _, [], h1, _ => by simp [RPLManager.lexLe] at h1
  | a :: as, b :: bs, h1, h2 => by
    by_cases hab : a.toNat = b.toNat
    · have hc : a = b := char_toNat_inj hab
      subst hc
      rw [show RPLManager.lexLe (a :: as) (a :: bs) =
          (if a.toNat = a.toNat then RPLManager.lexLe as bs
            else decide (a.toNat < a.toNat)) from rfl, if_pos rfl] at h1
      rw [show RPLManager.lexLe (a :: bs) (a :: as) =
          (if a.toNat = a.toNat then RPLManager.lexLe bs as
            else decide (a.toNat < a.toNat)) from rfl, if_pos rfl] at h2
      rw [lexLe_antisymm as bs h1 h2]
    · have hba : ¬ b.toNat = a.toNat := fun h => hab h.symm
      rw [show RPLManager.lexLe (a :: as) (b :: bs) =
          (if a.toNat = b.toNat then RPLManager.lexLe as bs
            else decide (a.toNat < b.toNat)) from rfl, if_neg hab] at h1
      rw [show RPLManager.lexLe (b :: bs) (a :: as) =
          (if b.toNat = a.toNat then RPLManager.lexLe bs as
            else decide (b.toNat < a.toNat)) from rfl, if_neg hba] at h2
      have hlt1 := of_decide_eq_true h1
      have hlt2 := of_decide_eq_true h2
      omega

theorem lexLe_trans : ∀ a b c, RPLManager.lexLe a b = true → RPLManager.lexLe b c = true →
    RPLManager.lexLe a c = true
  | [], _, _, _, _ => rfl
  | _ :: _, [], _, h1, _ => by simp [RPLManager.lexLe] at h1
  | _ :: _, _ :: _, [], _, h2 => by simp [RPLManager.lexLe] at h2
  | a :: as, b :: bs, c :: cs, h1, h2 => by
    rw [show RPLManager.lexLe (a :: as) (b :: bs) =
        (if a.toNat = b.toNat then RPLManager.lexLe as bs
          else decide (a.toNat < b.toNat)) from rfl] at h1
    rw [show RPLManager.lexLe (b :: bs) (c :: cs) =
        (if b.toNat = c.toNat then RPLManager.lexLe bs cs
          else decide (b.toNat < c.toNat)) from rfl] at h2
    rw [show RPLManager.lexLe (a :: as) (c :: cs) =
        (if a.toNat = c.toNat then RPLManager.lexLe as cs
          else decide (a.toNat < c.toNat)) from rfl]
    by_cases hab : a.toNat = b.toNat <;> by_cases hbc : b.toNat = c.toNat
    · rw [if_pos hab] at h1
      rw [if_pos hbc] at h2
      rw [if_pos (hab.trans hbc)]
      exact lexLe_trans as bs cs h1 h2
    · rw [if_pos hab] at h1
      rw [if_neg hbc] at h2
      have hlt := of_decide_eq_true h2
      have hac : ¬ a.toNat = c.toNat := by omega
      rw [if_neg hac]
      apply decide_eq_true
      omega
    · rw [if_neg hab] at h1
      rw [if_pos hbc] at h2
      have hlt := of_decide_eq_true h1
      have hac : ¬ a.toNat = c.toNat := by omega
      rw [if_neg hac]
      apply decide_eq_true
      omega
    · rw [if_neg hab] at h1
      rw [if_neg hbc] at h2
      have hlt1 := of_decide_eq_true h1
      have hlt2 := of_decide_eq_true h2
      have hac : ¬ a.toNat = c.toNat := by omega
      rw [if_neg hac]
      apply decide_eq_true
      omega

theorem natTripleLe_iff (p1 p2 p3 q1 q2 q3 : Nat) :
    ((if p1 = q1 then (if p2 = q2 then decide (p3 ≤ q3) else decide (p2 < q2))
      else decide (p1 < q1)) = true) ↔
    (p1 < q1 ∨ (p1 = q1 ∧ (p2 < q2 ∨ (p2 = q2 ∧ p3 ≤ q3)))) := by
  by_cases h1 : p1 = q1 <;> by_cases h2 : p2 = q2 <;> simp [h1, h2] <;> omega

theorem entryLe_total (x y : List Char × Nat × Nat × Nat) :
    RPLManager.entryLe x y = true ∨ RPLManager.entryLe y x = true := by
  by_cases h1 : x.1 = y.1
  · simp only [RPLManager.entryLe, if_pos h1, if_pos h1.symm]
    rw [natTripleLe_iff, natTripleLe_iff]
    omega
  · have h1' : ¬ y.1 = x.1 := fun hc => h1 hc.symm
    simp only [RPLManager.entryLe, if_neg h1, if_neg h1']
    exact lexLe_total x.1 y.1

theorem entryLe_trans (x y z : List Char × Nat × Nat × Nat)
    (hxy : RPLManager.entryLe x y = true) (hyz : RPLManager.entryLe y z = true) :
    RPLManager.entryLe x z = true := by
  by_cases h1 : x.1 = y.1 <;> by_cases h2 : y.1 = z.1
  · have h3 : x.1 = z.1 := h1.trans h2
    simp only [RPLManager.entryLe, if_pos h1] at hxy
    simp only [RPLManager.entryLe, if_pos h2] at hyz
    simp only [RPLManager.entryLe, if_pos h3]
    rw [natTripleLe_iff] at hxy hyz ⊢
    omega
  · have h3 : ¬ x.1 = z.1 := fun hc => h2 (h1.symm.trans hc)
    simp only [RPLManager.entryLe, if_neg h2] at hyz
    simp only [RPLManager.entryLe, if_neg h3]
    rw [← h1] at hyz
    exact hyz
  · have h3 : ¬ x.1 = z.1 := fun hc => h1 (hc.trans h2.symm)
    simp only [RPLManager.entryLe, if_neg h1] at hxy
    simp only [RPLManager.entryLe, if_neg h3]
    rw [h2] at hxy
    exact hxy
  · simp only [RPLManager.entryLe, if_neg h1] at hxy
    simp only [RPLManager.entryLe, if_neg h2] at hyz
    by_cases h3 : x.1 = z.1
    · rw [h3] at hxy
      exact absurd (lexLe_antisymm _ _ hyz hxy) h2
    · simp only [RPLManager.entryLe, if_neg h3]
      exact lexLe_trans _ _ _ hxy hyz

theorem entryLe_fst (x y : List Char × Nat × Nat × Nat)
    (h : RPLManager.entryLe x y = true) : RPLManager.lexLe x.1 y.1 = true := by
  by_cases h1 : x.1 = y.1
  · rw [h1]
    exact lexLe_refl y.1
  · simp only [RPLManager.entryLe, if_neg h1] at h
    exact h

/-- C9: `list_snapshots` lists exactly every file ending in `.rpl` (one
display tuple each, which a parse failure turns into a zero-count tuple
rather than omitting the entry or aborting), and the resulting sequence is
sorted so that version labels appear in ascending lexicographic order. -/
theorem C9_list_snapshots (entries : List RPLManager.SnapEntry) :
    (RPLManager.list_snapshots entries).Pairwise
      (fun a b => RPLManager.lexLe a.1 b.1 = true) ∧
    (∀ e ∈ entries, RPLManager.endsWithB rplE e.fname = true →
      RPLManager.entryOf e ∈ RPLManager.list_snapshots entries) ∧
    (∀ e ∈ entries, e.parsed = none →
      RPLManager.entryOf e = (stripLabel e.fname, e.size, 0, 0)) := by
  refine ⟨?_, ?_, ?_⟩
  · have hp := pairwise_sortLe RPLManager.entryLe entryLe_total entryLe_trans
      ((entries.filter fun e => RPLManager.endsWithB rplE e.fname).map RPLManager.entryOf)
    exact List.Pairwise.imp (fun hab => entryLe_fst _ _ hab) hp
  · intro e he hend
    have hmem : RPLManager.entryOf e ∈
        ((entries.filter fun e => RPLManager.endsWithB rplE e.fname).map
          RPLManager.entryOf) :=
      List.mem_map_of_mem _ (List.mem_filter.mpr ⟨he, hend⟩)
    exact (perm_sortLe RPLManager.entryLe _).mem_iff.mpr hmem
  · intro e he hnone
    simp only [RPLManager.entryOf, hnone]

/-- Witness for C9 on a directory holding a parsable snapshot file, a
corrupt snapshot file and a stray `.json` file. -/
theorem C9_list_snapshots_witness :
    RPLManager.entryOf ⟨"snapshot_b.rpl".data, 10, none⟩ ∈
      RPLManager.list_snapshots [⟨"snapshot_b.rpl".data, 10, none⟩,
        ⟨"snapshot_a.rpl".data, 5, some ⟨[], [], 0, 0⟩⟩,
        ⟨"snapshot_a.json".data, 3, none⟩] ∧
    RPLManager.entryOf ⟨"snapshot_b.rpl".data, 10, none⟩ =
      (stripLabel ("snapshot_b.rpl".data), 10, 0, 0) := by
  have h := C9_list_snapshots [⟨"snapshot_b.rpl".data, 10, none⟩,
    ⟨"snapshot_a.rpl".data, 5, some ⟨[], [], 0, 0⟩⟩, ⟨"snapshot_a.json".data, 3, none⟩]
  exact ⟨h.2.1 ⟨"snapshot_b.rpl".data, 10, none⟩ (by decide) (by decide),
    h.2.2 ⟨"snapshot_b.rpl".data, 10, none⟩ (by decide) rfl⟩

/-- C10: the label shown by the snapshot listing is the stored file name
with every occurrence of `snapshot_` and then every occurrence of `.rpl`
removed, so a snapshot created under label `v` is displayed as `v` verbatim
if and only if `v` contains neither `snapshot_` nor `.rpl` as a substring. -/
theorem C10_label_display (v : List Char) :
    stripLabel (snapshotFileName v) = v ↔
      (hasSub snapPat v = false ∧ hasSub rplE v = false) := by
  constructor
  · intro h
    cases hsn : hasSub snapPat v with
    | true =>
      have hlt := stripLabel_short_of_snap v hsn
      rw [h] at hlt
      exact absurd hlt (lt_irrefl _)
    | false =>
      cases hr : hasSub rplE v with
      | true =>
        have hlt := stripLabel_short_of_rpl v hsn hr
        rw [h] at hlt
        exact absurd hlt (lt_irrefl _)
      | false => exact ⟨rfl, rfl⟩
  · rintro ⟨h1, h2⟩
    exact stripLabel_eq_of_clean v h1 h2

/-- Witness for C10 at the clean label `1.0` and the dirty label `a.rpl`. -/
theorem C10_label_display_witness :
    stripLabel (snapshotFileName ("1x0".data)) = "1x0".data ∧
      stripLabel (snapshotFileName ("a.rpl".data)) ≠ "a.rpl".data := by
  constructor
  · exact (C10_label_display ("1x0".data)).mpr (by decide)
  · intro hc
    have h := (C10_label_display ("a.rpl".data)).mp hc
    have : hasSub rplE ("a.rpl".data) = true := by decide
    rw [h.2] at this
    exact absurd this (by simp)
